import Mathlib

/-!
Shallow embedding of the NAFF frequency-analysis engine
(`gary/dynamics/naff.py`): the Hanning-weighted inner product over a
Simpson quadrature, the spectral/refinement step `NAFF.frequency`, the
weighted Gram-Schmidt step `NAFF.gso`, the iterative component extractor
`NAFF.frecoder`, the fundamental-frequency selector
`NAFF.find_fundamental_frequencies`, and the brute-force integer-vector
fitter `NAFF.find_integer_vectors`.

Real/complex samples are modelled with exact `ℝ`/`ℂ` arithmetic (the
idealization of the floating-point code).  The external FFT primitive and
the external constrained scalar minimizer (`scipy.optimize.fmin_slsqp`)
are modelled as oracle parameters (`Oracles`), as the code treats them as
black boxes; everything else is translated from the source.  Python
exceptions are modelled with `Except`: the error values carried are in
`NaffError`.
-/

open scoped Classical

noncomputable section

/-- Errors raised by the Python code: `ValueError` from the failed
minimization in `NAFF.frequency` (carrying the solver status `imode`),
the `NameError` from `frecoder`'s unbound loop variable when
`nintvec = 0`, the `IndexError` from `ixes[0]` on an empty candidate set
in `find_fundamental_frequencies`, and the `ValueError` from its
x/y/z-coverage check. -/
inductive NaffError where
  | refinement (imode : ℤ)
  | nameErr
  | indexErr
  | valueErr
  deriving DecidableEq

/-- External primitives used by `NAFF.frequency`: the FFT backend
(`numpy.fft.fft` / `pyfftw`), and the bounded constrained scalar
minimizer `scipy.optimize.fmin_slsqp`, which receives the objective, the
start point `x0` and the iteration cap `iter`, and reports the found
minimizer together with its exit status `imode` (0 = success). -/
structure Oracles where
  fft : List ℂ → List ℂ
  slsqp : (ℝ → ℝ) → ℝ → ℕ → ℝ × ℤ

/-- Source `hanning(x) = 1 + np.cos(x)`. -/
def hanning (x : ℝ) : ℝ := 1 + Real.cos x

/-- State built by `NAFF.__init__`: the time grid `t`, midpoint `ts`,
half-span `T`, centered times `tz` and the precomputed Hanning filter
values `chi`. -/
structure NAFF where
  t : List ℝ
  ts : ℝ
  T : ℝ
  tz : List ℝ
  chi : List ℝ

/-- The body of `NAFF.__init__`: `ts = 0.5*(t[-1]+t[0])`,
`T = 0.5*(t[-1]-t[0])`, `tz = t - ts`, `chi = hanning(tz*pi/T)`. -/
def stOf (t : List ℝ) : NAFF :=
  let ts := 0.5 * (t.getLastD 0 + t.getD 0 0)
  let T := 0.5 * (t.getLastD 0 - t.getD 0 0)
  let tz := t.map (fun x => x - ts)
  { t := t, ts := ts, T := T, tz := tz
    chi := tz.map (fun z => hanning (z * Real.pi / T)) }

/-- `NAFF.__init__` as a constructor: indexing `t[-1]`/`t[0]` raises
`IndexError` on an empty array; any nonempty time array is accepted as
is (the constructor performs no further validation of the grid). -/
def NAFF.init (t : List ℝ) : Option NAFF :=
  if t.isEmpty then none else some (stOf t)

/-- One elementary term of the composite Simpson rule on a possibly
nonuniform grid, as in `scipy.integrate.simps`: the contribution of the
sample triple at indices `i`, `i+1`, `i+2`. -/
def simpTerm (y x : List ℝ) (i : ℕ) : ℝ :=
  let h0 := x.getD (i + 1) 0 - x.getD i 0
  let h1 := x.getD (i + 2) 0 - x.getD (i + 1) 0
  (h0 + h1) / 6 *
    (y.getD i 0 * (2 - h1 / h0) +
     y.getD (i + 1) 0 * ((h0 + h1) ^ 2 / (h0 * h1)) +
     y.getD (i + 2) 0 * (2 - h0 / h1))

/-- Sum of `count` Simpson triples starting at sample index `start`,
stepping by 2 (the `_basic_simpson` core of `scipy.integrate.simps`). -/
def basicSimpson (y x : List ℝ) (start count : ℕ) : ℝ :=
  ∑ j ∈ Finset.range count, simpTerm y x (start + 2 * j)

/-- Trapezoid correction over the first interval, used by
`scipy.integrate.simps` for an even number of samples. -/
def trapFirst (y x : List ℝ) : ℝ :=
  0.5 * (x.getD 1 0 - x.getD 0 0) * (y.getD 1 0 + y.getD 0 0)

/-- Trapezoid correction over the last interval, used by
`scipy.integrate.simps` for an even number of samples. -/
def trapLast (y x : List ℝ) : ℝ :=
  let n := y.length
  0.5 * (x.getD (n - 1) 0 - x.getD (n - 2) 0) *
    (y.getD (n - 1) 0 + y.getD (n - 2) 0)

/-- `scipy.integrate.simps(y, x)` with the default `even='avg'` policy:
for an odd number of samples, the composite Simpson rule; for an even
number, the average of (Simpson on all but the last interval plus a
trapezoid there) and (trapezoid on the first interval plus Simpson on
the rest). -/
def simpson (y x : List ℝ) : ℝ :=
  let n := y.length
  if n % 2 = 1 then basicSimpson y x 0 ((n - 1) / 2)
  else
    (trapLast y x + trapFirst y x) / 2 +
      (basicSimpson y x 0 ((n - 2) / 2) + basicSimpson y x 1 ((n - 2) / 2)) / 2

/-- Pointwise integrand `u1 * conj(u2) * chi` of `hanning_product`. -/
def integ3 : List ℂ → List ℂ → List ℝ → List ℂ
  | u :: us, v :: vs, c :: cs =>
      u * (starRingEnd ℂ) v * (c : ℂ) :: integ3 us vs cs
  | _, _, _ => []

/-- Source `NAFF.hanning_product`: integrate real and imaginary part of
`u1 * conj(u2) * chi` separately with `simps(..., x=tz)`, divide by
`2T`, and recombine as a complex scalar. -/
def NAFF.hanning_product (st : NAFF) (u1 u2 : List ℂ) : ℂ :=
  ((simpson ((integ3 u1 u2 st.chi).map Complex.re) st.tz / (2 * st.T) : ℝ) : ℂ) +
    ((simpson ((integ3 u1 u2 st.chi).map Complex.im) st.tz / (2 * st.T) : ℝ) : ℂ) *
      Complex.I

/-- Index of the first minimum of a list (the `numpy.argmin` tie rule). -/
def argminFrom : List ℝ → ℕ
  | [] => 0
  | x :: xs =>
    match xs with
    | [] => 0
    | _ :: _ =>
      let j := argminFrom xs
      if x ≤ xs.getD j 0 then 0 else j + 1

/-- Index of the first maximum of a list (the `numpy.argmax` tie rule). -/
def argmaxFrom : List ℝ → ℕ
  | [] => 0
  | x :: xs =>
    match xs with
    | [] => 0
    | _ :: _ =>
      let j := argmaxFrom xs
      if xs.getD j 0 ≤ x then 0 else j + 1

/-- Source `numpy.fft.fftfreq(n, d)`: frequencies
`[0, 1, ..., ceil(n/2)-1, -floor(n/2), ..., -1] / (n*d)`. -/
def fftfreq (n : ℕ) (d : ℝ) : List ℝ :=
  (List.range n).map fun i =>
    if i < (n + 1) / 2 then (i : ℝ) / (n * d) else ((i : ℝ) - n) / (n * d)

/-- Source `np.arctan2(y, x)`, which agrees with the principal argument
of the complex number `x + i y`. -/
def arctan2 (y x : ℝ) : ℝ := Complex.arg ⟨x, y⟩

/-- The rescaled real parts of the FFT of `f`:
`xf = fff.real * (-1)^k / sqrt(ndata - 1)` with `fff = fft(f)/sqrt(ndata)`. -/
def xfOf (oc : Oracles) (f : List ℂ) : List ℝ :=
  let ndata := f.length
  let fff := (oc.fft f).map (fun z => z / ((Real.sqrt ndata : ℝ) : ℂ))
  let A := 1 / Real.sqrt ((ndata : ℝ) - 1)
  (List.range ndata).map fun i => A * (fff.getD i 0).re * (-1 : ℝ) ^ i

/-- The rescaled imaginary parts of the FFT of `f` (see `xfOf`). -/
def yfOf (oc : Oracles) (f : List ℂ) : List ℝ :=
  let ndata := f.length
  let fff := (oc.fft f).map (fun z => z / ((Real.sqrt ndata : ℝ) : ℂ))
  let A := 1 / Real.sqrt ((ndata : ℝ) - 1)
  (List.range ndata).map fun i => A * (fff.getD i 0).im * (-1 : ℝ) ^ i

/-- `wmax = np.max(np.abs(np.vstack((xf,yf))), axis=0).argmax()`: the
first index maximizing the larger of the two rescaled magnitudes. -/
def wmaxOf (oc : Oracles) (f : List ℂ) : ℕ :=
  let xf := xfOf oc f
  let yf := yfOf oc f
  argmaxFrom ((List.range f.length).map fun i => max |xf.getD i 0| |yf.getD i 0|)

/-- The early-return guard of `NAFF.frequency`: `xf[wmax] == 0.`
("this may be an axial or planar orbit"). -/
def earlyCond (oc : Oracles) (f : List ℂ) : Prop :=
  (xfOf oc f).getD (wmaxOf oc f) 0 = 0

/-- `omegas = 2*pi*fftfreq(f.size, t[1]-t[0])`. -/
def omegasOf (st : NAFF) (f : List ℂ) : List ℝ :=
  (fftfreq f.length (st.t.getD 1 0 - st.t.getD 0 0)).map fun ν => 2 * Real.pi * ν

/-- `invtransform(y) = y*(omax - omin) + omin`, mapping the normalized
search window back to angular frequencies. -/
def invtransform (omin omax y : ℝ) : ℝ := y * (omax - omin) + omin

/-- The objective `phi_w` of `NAFF.frequency` (Eq. 12 of Valluri &
Merritt 1998): minus the magnitude of the windowed projection
`simps(chi * (Re f * cos(w t) + Im f * sin(w t)), x=tz) / (2T)`,
evaluated at the de-normalized frequency. -/
def phiW (st : NAFF) (f : List ℂ) (omin omax w : ℝ) : ℝ :=
  let wr := invtransform omin omax w
  let zreal := (List.range f.length).map (fun i =>
    st.chi.getD i 0 *
      ((f.getD i 0).re * Real.cos (wr * st.tz.getD i 0) +
       (f.getD i 0).im * Real.sin (wr * st.tz.getD i 0)))
  Neg.neg |simpson zreal st.tz / (2 * st.T)|

/-- The warm-start grid `np.linspace(0, 1, 50)`. -/
def gridWs : List ℝ := (List.range 50).map fun j => (j : ℝ) / 49

/-- The warm start of the constrained minimization: the grid argmin of
`phi_w`, or the midpoint `0.5` when the sampled objective is everywhere
below `1e-10` in magnitude (degenerate flat objective). -/
def initWOf (st : NAFF) (f : List ℂ) (omin omax : ℝ) : ℝ :=
  let phiVals := gridWs.map (phiW st f omin omax)
  let phiIx := argminFrom phiVals
  if ∀ v ∈ phiVals, |v| < 1e-10 then 0.5 else gridWs.getD phiIx 0

/-- Lower edge `omega0 - pi/T` of the refinement search window. -/
def ominOf (st : NAFF) (oc : Oracles) (f : List ℂ) : ℝ :=
  (omegasOf st f).getD (wmaxOf oc f) 0 - Real.pi / st.T

/-- Upper edge `omega0 + pi/T` of the refinement search window. -/
def omaxOf (st : NAFF) (oc : Oracles) (f : List ℂ) : ℝ :=
  (omegasOf st f).getD (wmaxOf oc f) 0 + Real.pi / st.T

/-- The first minimization attempt of `NAFF.frequency`: `fmin_slsqp` on
`phi_w` from the grid warm start, iteration cap 50. -/
def slsqpFirst (st : NAFF) (oc : Oracles) (f : List ℂ) : ℝ × ℤ :=
  oc.slsqp (phiW st f (ominOf st oc f) (omaxOf st oc f))
    (initWOf st f (ominOf st oc f) (omaxOf st oc f)) 50

/-- The retry attempt of `NAFF.frequency`: `fmin_slsqp` on `phi_w` from
the midpoint `0.5`, iteration cap 100. -/
def slsqpSecond (st : NAFF) (oc : Oracles) (f : List ℂ) : ℝ × ℤ :=
  oc.slsqp (phiW st f (ominOf st oc f) (omaxOf st oc f)) 0.5 100

/-- Source `NAFF.frequency`: FFT-based coarse peak estimate (with early
return 0 when the peak's real part vanishes), then `fmin_slsqp` on
`phi_w` from the warm start with iteration cap 50, one retry from the
midpoint with cap 100 on a nonzero exit status, and a `ValueError`
carrying the solver status when the retry also fails. -/
def NAFF.frequency (st : NAFF) (oc : Oracles) (f : List ℂ) :
    Except NaffError ℝ :=
  if earlyCond oc f then .ok 0
  else
    let r1 := slsqpFirst st oc f
    if r1.2 = 0 then .ok (invtransform (ominOf st oc f) (omaxOf st oc f) r1.1)
    else
      let r2 := slsqpSecond st oc f
      if r2.2 = 0 then .ok (invtransform (ominOf st oc f) (omaxOf st oc f) r2.1)
      else .error (.refinement r2.2)

/-- The raw basis exponential `exp(i nu t)` sampled on the time grid. -/
def rawExp (st : NAFF) (ν : ℝ) : List ℂ :=
  st.t.map fun τ => Complex.exp (Complex.I * (ν : ℝ) * (τ : ℝ))

/-- The orthogonalization residual of `NAFF.gso`: the raw exponential
`u_n = exp(i nu t)` minus its projections
`c_ik[j] = hanning_product(u_n, ecap[j])` onto the first `k` basis
vectors. -/
def gsoResidual (st : NAFF) (ecap : List (List ℂ)) (ν : ℝ) (k : ℕ) : List ℂ :=
  let un := rawExp st ν
  let c : ℕ → ℂ := fun j => st.hanning_product un (ecap.getD j [])
  (List.range un.length).map fun i =>
    un.getD i 0 - ∑ j ∈ Finset.range k, c j * (ecap.getD j []).getD i 0

/-- Source `NAFF.gso`: build the orthogonalization residual and
normalize it by `1/sqrt(<e_i, e_i>)` — except that a residual with
exactly zero self inner product gets normalization factor 0 instead. -/
def NAFF.gso (st : NAFF) (ecap : List (List ℂ)) (ν : ℝ) (k : ℕ) : List ℂ :=
  let ei := gsoResidual st ecap ν k
  let prod := st.hanning_product ei ei
  let norm : ℂ := if prod = 0 then 0 else 1 / prod ^ ((1 : ℂ) / 2)
  ei.map fun z => z * norm

/-- Source `NAFF.sub_chi`: subtract the projected component
`f_k = f_km1 - a_k * ecap_k` and return the residual together with its
peak amplitude `max |f_k|`. -/
def NAFF.sub_chi (f_km1 ecap_k : List ℂ) (a_k : ℂ) : List ℂ × ℝ :=
  let f_k := List.zipWith (fun a b => a - a_k * b) f_km1 ecap_k
  (f_k, (f_k.map Complex.abs).foldr max 0)

/-- One iteration of the `frecoder` loop: frequency search on the
current residual, basis vector construction (raw exponential at `k = 0`,
`gso` afterwards), projection for amplitude and phase, and subtraction.
Records the per-iteration data used by the stopping test. -/
structure FrecStep where
  nu : ℝ
  A : ℝ
  phi : ℝ
  fmax : ℝ
  e : List ℂ

instance : Inhabited FrecStep := ⟨⟨0, 0, 0, 0, []⟩⟩

/-- Body of one `frecoder` iteration on residual `fk` with the basis
vectors built so far (a `frequency` failure propagates). -/
def frecBody (st : NAFF) (oc : Oracles) (fk : List ℂ)
    (ecap : List (List ℂ)) : Except NaffError (FrecStep × List ℂ) :=
  match st.frequency oc fk with
  | .error e => .error e
  | .ok ν =>
    let e := if ecap.isEmpty then rawExp st ν else st.gso ecap ν ecap.length
    let ab := st.hanning_product fk e
    let sub := NAFF.sub_chi fk e ab
    .ok (⟨ν, Complex.abs ab, arctan2 ab.im ab.re, sub.2, e⟩, sub.1)

/-- The stopping test of `frecoder`:
`break_condition is not None and (fmax < bc or A[k] < bc)`. -/
def brkCond (bc : Option ℝ) (s : FrecStep) : Prop :=
  match bc with
  | none => False
  | some ε => s.fmax < ε ∨ s.A < ε

/-- The `for k in range(nintvec)` loop of `frecoder`, with the break at
the end of the body; returns the trace of completed iterations. -/
def frecLoop (st : NAFF) (oc : Oracles) (bc : Option ℝ) :
    ℕ → List ℂ → List (List ℂ) → Except NaffError (List FrecStep)
  | 0, _, _ => .ok []
  | fuel + 1, fk, ecap =>
    match frecBody st oc fk ecap with
    | .error e => .error e
    | .ok (s, fk1) =>
      if brkCond bc s then .ok [s]
      else
        match frecLoop st oc bc fuel fk1 (ecap ++ [s.e]) with
        | .error e => .error e
        | .ok rest => .ok (s :: rest)

/-- The iteration trace of a `frecoder` run. -/
def frecTrace (st : NAFF) (oc : Oracles) (f : List ℂ) (nintvec : ℕ)
    (bc : Option ℝ) : Except NaffError (List FrecStep) :=
  frecLoop st oc bc nintvec f []

/-- Source `NAFF.frecoder`: run the extraction loop and return
`(-nu[:k+1], A[:k+1], phi[:k+1])`.  With `nintvec = 0` the loop body
never runs and the slice `nu[:k+1]` hits the unbound loop variable `k`
(a `NameError`). -/
def NAFF.frecoder (st : NAFF) (oc : Oracles) (f : List ℂ) (nintvec : ℕ)
    (bc : Option ℝ) : Except NaffError (List ℝ × List ℝ × List ℝ) :=
  if nintvec = 0 then .error .nameErr
  else
    match frecTrace st oc f nintvec bc with
    | .error e => .error e
    | .ok steps =>
      .ok (steps.map fun s => -s.nu, steps.map (·.A), steps.map (·.phi))

/-- One row of the component table `d` of
`find_fundamental_frequencies`: fields `freq`, `A`, `|A|`, `phi`, `n`. -/
structure Comp where
  freq : ℝ
  A : ℂ
  absA : ℝ
  phi : ℝ
  n : ℕ

instance : Inhabited Comp := ⟨⟨0, 0, 0, 0, 0⟩⟩

/-- The rows contributed by dimension `i`, given the `frecoder` output
`(nu, A, phi)` for that dimension: `freq = -nu`, `A = A*exp(i*phi)`,
`|A| = A`, tagged with the source dimension. -/
def dimComps (i : ℕ) (run : List ℝ × List ℝ × List ℝ) : List Comp :=
  (List.range run.1.length).map fun k =>
    { freq := -(run.1.getD k 0)
      A := (run.2.1.getD k 0 : ℝ) * Complex.exp (Complex.I * (run.2.2.getD k 0 : ℝ))
      absA := run.2.1.getD k 0
      phi := run.2.2.getD k 0
      n := i }

/-- The concatenated (unsorted) component table across dimensions. -/
def buildTable (runs : List (List ℝ × List ℝ × List ℝ)) : List Comp :=
  ((runs.enum).map fun p => dimComps p.1 p.2).flatten

/-- `d = d[d['|A|'].argsort()[::-1]]`: the table sorted by descending
amplitude magnitude. -/
def sortTable (d : List Comp) : List Comp :=
  List.insertionSort (fun a b => b.absA ≤ a.absA) d

/-- First index and element of a list satisfying a predicate
(`np.where(cond)[0][0]` together with the row it selects). -/
def firstWhere (p : Comp → Prop) [DecidablePred p] :
    List Comp → Option (ℕ × Comp)
  | [] => none
  | c :: cs =>
    if p c then some (0, c)
    else (firstWhere p cs).map fun q => (q.1 + 1, q.2)

/-- Filter for the first fundamental: `np.abs(d['freq']) > 1E-5`. -/
def selP1 (c : Comp) : Prop := |c.freq| > 1e-5

/-- Filter for the second fundamental: nonzero frequency, a different
source dimension than the first pick, and a frequency magnitude more
than `1E-6` away from the first pick's. -/
def selP2 (c0 : Comp) (f0 : ℝ) (c : Comp) : Prop :=
  |c.freq| > 1e-5 ∧ c.n ≠ c0.n ∧ abs (|f0| - |c.freq|) > 1e-6

/-- Filter for the third fundamental: nonzero frequency, a third
distinct source dimension, and frequency magnitude more than `1E-6`
away from both prior picks'. -/
def selP3 (c0 c1 : Comp) (f0 f1 : ℝ) (c : Comp) : Prop :=
  |c.freq| > 1e-5 ∧ c.n ≠ c0.n ∧ c.n ≠ c1.n ∧
    abs (|f0| - |c.freq|) > 1e-6 ∧ abs (|f1| - |c.freq|) > 1e-6

/-- `np.argsort` of a list of dimension tags: the positions of the
entries in ascending tag order. -/
def argsortNat (l : List ℕ) : List ℕ :=
  List.insertionSort (fun i j => l.getD i 0 ≤ l.getD j 0)
    (List.range l.length)

/-- `vals[nqs.argsort()]`: reorder picked values by ascending source
dimension. -/
def reorderBy {α : Type} (nqs : List ℕ) (vals : List α) (dflt : α) : List α :=
  (argsortNat nqs).map fun i => vals.getD i dflt

/-- The coverage check
`np.all(np.unique(sorted(nqs)) == [0,1,2])` on the three tags. -/
def coverageOK (n0 n1 n2 : ℕ) : Prop :=
  (List.insertionSort (· ≤ ·) [n0, n1, n2]).dedup = [0, 1, 2]

/-- The selection stage of `find_fundamental_frequencies` (source lines
following the table sort): pick the fundamentals sequentially through
the `np.where` filters (an empty candidate set raises `IndexError` at
`ixes[0]`), check x/y/z coverage in the three-dimensional case
(`ValueError` otherwise), and return the frequencies and table indices
reordered by ascending source dimension. -/
def select (d : List Comp) (ndim : ℕ) : Except NaffError (List ℝ × List ℕ) :=
  match firstWhere selP1 d with
  | none => .error .indexErr
  | some (i0, c0) =>
    if ndim = 1 then .ok ([c0.freq], [i0])
    else
      match firstWhere (selP2 c0 c0.freq) d with
      | none => .error .indexErr
      | some (i1, c1) =>
        if ndim = 2 then
          .ok (reorderBy [c0.n, c1.n] [c0.freq, c1.freq] 0,
               reorderBy [c0.n, c1.n] [i0, i1] 0)
        else
          match firstWhere (selP3 c0 c1 c0.freq c1.freq) d with
          | none => .error .indexErr
          | some (i2, c2) =>
            if coverageOK c0.n c1.n c2.n then
              .ok (reorderBy [c0.n, c1.n, c2.n] [c0.freq, c1.freq, c2.freq] 0,
                   reorderBy [c0.n, c1.n, c2.n] [i0, i1, i2] 0)
            else .error .valueErr

/-- Source `NAFF.find_fundamental_frequencies`: run `frecoder` on each
dimension's series, build the component table with `freq = -nu` (the
negation of the `frecoder` output), sort it by descending amplitude, and
run the fundamental selection on it. -/
def NAFF.find_fundamental_frequencies (st : NAFF) (oc : Oracles)
    (fs : List (List ℂ)) (nintvec : ℕ) (bc : Option ℝ) :
    Except NaffError (List ℝ × List Comp × List ℕ) :=
  match fs.mapM (fun f => st.frecoder oc f nintvec bc) with
  | .error e => .error e
  | .ok runs =>
    let d := sortTable (buildTable runs)
    match select d fs.length with
    | .error e => .error e
    | .ok (ffreq, ixes) => .ok (ffreq, d, ixes)

/-- The integers `-imax .. imax`. -/
def intRange (imax : ℕ) : List ℤ :=
  (List.range (2 * imax + 1)).map fun (i : ℕ) => (i : ℤ) - (imax : ℤ)

/-- All integer tuples in `{-imax..imax}^m` (the flattened
`np.mgrid` lattice of `find_integer_vectors`, in lexicographic order). -/
def nvecs : ℕ → ℕ → List (List ℤ)
  | 0, _ => [[]]
  | m + 1, imax => (intRange imax).flatMap fun v => (nvecs m imax).map (v :: ·)

/-- `nvecs.dot(ffreqs)` for one integer tuple. -/
def dotIF (n : List ℤ) (ffreqs : List ℝ) : ℝ :=
  (List.zipWith (fun a b => (a : ℝ) * b) n ffreqs).sum

/-- Source `NAFF.find_integer_vectors`: for each table row, the integer
tuple of the lattice minimizing `|freq - n . ffreqs|` (first minimum,
as `np.argmin`). -/
def NAFF.find_integer_vectors (ffreqs : List ℝ) (d : List Comp)
    (imax : ℕ) : List (List ℤ) :=
  let vecs := nvecs ffreqs.length imax
  d.map fun c =>
    let errs := vecs.map fun n => |c.freq - dotIF n ffreqs|
    vecs.getD (argminFrom errs) []

/-- An oracle pair whose minimizer always reports failure status 1, and
whose FFT returns a fixed spectrum with a real first peak. -/
def ocFail : Oracles := ⟨fun _ => [1, 0], fun _ _ _ => (0.5, 1)⟩

/-- An oracle pair whose FFT vanishes identically, so the spectral peak
guard of `NAFF.frequency` fires and the search frequency is 0. -/
def ocZero : Oracles := ⟨fun _ => [0, 0], fun _ _ _ => (0, 0)⟩

/-- An oracle pair whose FFT puts a unit spike at bin 1 regardless of
input (covering the input lengths 2, 3 and 4), and whose minimizer
reports success at the midpoint of the normalized window, so the refined
frequency equals the coarse FFT-bin estimate. -/
def ocSpike : Oracles :=
  ⟨fun l =>
    if l.length = 3 then [0, 1, 0]
    else if l.length = 4 then [0, 1, 0, 0]
    else [0, 1],
   fun _ _ _ => (0.5, 0)⟩

/-- Concrete constant test series of length 2. -/
def fA : List ℂ := [1, 1]

/-- Concrete constant test series of length 3. -/
def fB : List ℂ := [1, 1, 1]

/-- Concrete constant test series of length 4. -/
def fC : List ℂ := [1, 1, 1, 1]

/-- Concrete two-sample analysis session on the grid `t = [0, 2]` (its
window weights vanish at both samples). -/
def stW2 : NAFF := stOf [0, 2]

/-- Concrete three-sample analysis session on the grid `t = [0, 1, 2]`. -/
def stW3 : NAFF := stOf [0, 1, 2]

end

theorem getD_map_neg (l : List ℝ) (i : ℕ) :
    (l.map fun a => -a).getD i 0 = -(l.getD i 0) := by
  induction l generalizing i with
  | nil => simp [List.getD]
  | cons a as ih =>
    cases i with
    | zero => simp
    | succ n => simpa using ih n

theorem getD_eq_zero_of_all_zero {α : Type} [Zero α] {l : List α}
    (h : ∀ a ∈ l, a = 0) (i : ℕ) : l.getD i 0 = 0 := by
  rw [List.getD_eq_getElem?_getD]
  cases hx : l[i]? with
  | none => rfl
  | some a => exact h a (List.getElem?_mem hx)

theorem simpTerm_neg (y x : List ℝ) (i : ℕ) :
    simpTerm (y.map fun a => -a) x i = -simpTerm y x i := by
  unfold simpTerm
  rw [getD_map_neg, getD_map_neg, getD_map_neg]
  ring

theorem simpTerm_all_zero {y : List ℝ} (x : List ℝ) (h : ∀ a ∈ y, a = 0)
    (i : ℕ) : simpTerm y x i = 0 := by
  unfold simpTerm
  rw [getD_eq_zero_of_all_zero h, getD_eq_zero_of_all_zero h,
    getD_eq_zero_of_all_zero h]
  ring

theorem basicSimpson_neg (y x : List ℝ) (s c : ℕ) :
    basicSimpson (y.map fun a => -a) x s c = -basicSimpson y x s c := by
  unfold basicSimpson
  rw [← Finset.sum_neg_distrib]
  exact Finset.sum_congr rfl fun j _ => simpTerm_neg y x _

theorem basicSimpson_all_zero {y : List ℝ} (x : List ℝ)
    (h : ∀ a ∈ y, a = 0) (s c : ℕ) : basicSimpson y x s c = 0 := by
  unfold basicSimpson
  exact Finset.sum_eq_zero fun j _ => simpTerm_all_zero x h _

theorem simpson_neg (y x : List ℝ) :
    simpson (y.map fun a => -a) x = -simpson y x := by
  unfold simpson trapFirst trapLast
  rw [List.length_map]
  by_cases h : y.length % 2 = 1 <;>
    simp only [h, if_true, if_false, getD_map_neg, List.length_map,
      basicSimpson_neg] <;> ring

theorem simpson_all_zero {y : List ℝ} (x : List ℝ) (h : ∀ a ∈ y, a = 0) :
    simpson y x = 0 := by
  unfold simpson trapFirst trapLast
  by_cases hl : y.length % 2 = 1 <;>
    simp only [hl, if_true, if_false, getD_eq_zero_of_all_zero h,
      basicSimpson_all_zero x h] <;> ring

theorem integ3_swap (u v : List ℂ) (c : List ℝ) :
    integ3 v u c = (integ3 u v c).map (starRingEnd ℂ) := by
  induction u generalizing v c with
  | nil => cases v <;> cases c <;> simp [integ3]
  | cons a as ih =>
    cases v with
    | nil => cases c <;> simp [integ3]
    | cons b bs =>
      cases c with
      | nil => simp [integ3]
      | cons x xs =>
        simp only [integ3, List.map_cons, List.cons.injEq]
        refine ⟨?_, ih bs xs⟩
        simp only [map_mul, Complex.conj_conj, Complex.conj_ofReal]
        ring

/-- C8: the weighted inner product is conjugate-symmetric: for
equal-length complex series aligned to the grid,
`hanning_product(u, v) = conj(hanning_product(v, u))` exactly. -/
theorem C8_hanning_product_conj_symm (st : NAFF) (u v : List ℂ)
    (h : u.length = v.length) :
    st.hanning_product u v = (starRingEnd ℂ) (st.hanning_product v u) := by
  unfold NAFF.hanning_product
  rw [show integ3 u v st.chi = (integ3 v u st.chi).map (starRingEnd ℂ) from
    integ3_swap v u st.chi]
  have hre : ((integ3 v u st.chi).map (starRingEnd ℂ)).map Complex.re =
      (integ3 v u st.chi).map Complex.re := by
    rw [List.map_map]; rfl
  have him : ((integ3 v u st.chi).map (starRingEnd ℂ)).map Complex.im =
      ((integ3 v u st.chi).map Complex.im).map fun a => -a := by
    rw [List.map_map, List.map_map]; rfl
  rw [hre, him, simpson_neg]
  simp only [map_add, map_mul, Complex.conj_ofReal, Complex.conj_I]
  push_cast
  ring

/-- Witness for C8 at a concrete pair of equal-length series. -/
theorem C8_witness :
    ([(1 : ℂ), Complex.I].length = [(Complex.I : ℂ), 2].length) ∧
      stW2.hanning_product [(1 : ℂ), Complex.I] [(Complex.I : ℂ), 2] =
        (starRingEnd ℂ)
          (stW2.hanning_product [(Complex.I : ℂ), 2] [(1 : ℂ), Complex.I]) :=
  ⟨rfl, C8_hanning_product_conj_symm stW2 _ _ rfl⟩

theorem integ3_all_zero_of_chi {c : List ℝ} (hc : ∀ x ∈ c, x = 0)
    (u v : List ℂ) : ∀ z ∈ integ3 u v c, z = 0 := by
  induction u generalizing v c with
  | nil => cases v <;> cases c <;> simp [integ3]
  | cons a as ih =>
    cases v with
    | nil => cases c <;> simp [integ3]
    | cons b bs =>
      cases c with
      | nil => simp [integ3]
      | cons x xs =>
        intro z hz
        simp only [integ3, List.mem_cons] at hz
        rcases hz with rfl | hz
        · rw [hc x (by simp)]
          simp
        · exact ih (fun y hy => hc y (List.mem_cons_of_mem x hy)) bs z hz

/-- When every window weight vanishes, every weighted inner product is
zero. -/
theorem hanning_product_chi_zero (st : NAFF) (hc : ∀ x ∈ st.chi, x = 0)
    (u v : List ℂ) : st.hanning_product u v = 0 := by
  unfold NAFF.hanning_product
  have h1 : ∀ a ∈ (integ3 u v st.chi).map Complex.re, a = 0 := by
    intro a ha
    rcases List.mem_map.1 ha with ⟨z, hz, rfl⟩
    rw [integ3_all_zero_of_chi hc u v z hz, Complex.zero_re]
  have h2 : ∀ a ∈ (integ3 u v st.chi).map Complex.im, a = 0 := by
    intro a ha
    rcases List.mem_map.1 ha with ⟨z, hz, rfl⟩
    rw [integ3_all_zero_of_chi hc u v z hz, Complex.zero_im]
  rw [simpson_all_zero st.tz h1, simpson_all_zero st.tz h2]
  simp

theorem map_mul_zero (l : List ℂ) :
    (l.map fun z => z * (0 : ℂ)) = List.replicate l.length 0 := by
  induction l with
  | nil => rfl
  | cons a as ih => simp [ih, List.replicate_succ]

theorem gsoResidual_length (st : NAFF) (ecap : List (List ℂ)) (ν : ℝ)
    (k : ℕ) : (gsoResidual st ecap ν k).length = st.t.length := by
  unfold gsoResidual rawExp
  simp

/-- C7: when the orthogonalization residual has exactly zero weighted
self inner product, `gso` sets the normalization factor to zero and
returns the all-zero series (no division is performed, so no NaN or Inf
can enter the basis). -/
theorem C7_gso_zero_norm (st : NAFF) (ecap : List (List ℂ)) (ν : ℝ) (k : ℕ)
    (h : st.hanning_product (gsoResidual st ecap ν k)
          (gsoResidual st ecap ν k) = 0) :
    st.gso ecap ν k = List.replicate st.t.length (0 : ℂ) := by
  simp only [NAFF.gso]
  rw [if_pos h, map_mul_zero, gsoResidual_length]

theorem stW2_chi : stW2.chi = [0, 0] := by
  show (stOf [0, 2]).chi = [0, 0]
  unfold stOf hanning
  norm_num [Real.cos_pi]

theorem stW2_t_len : stW2.t.length = 2 := rfl

/-- Witness for C7: on the grid `t = [0, 2]` (vanishing window weights)
with an empty basis and candidate frequency 0, the residual's self inner
product is exactly zero and `gso` returns the all-zero series. -/
theorem C7_witness :
    stW2.hanning_product (gsoResidual stW2 [] 0 0) (gsoResidual stW2 [] 0 0) = 0 ∧
      stW2.gso [] 0 0 = [(0 : ℂ), 0] := by
  have hc : ∀ x ∈ stW2.chi, x = 0 := by rw [stW2_chi]; intro x hx; simpa using hx
  have hp0 := hanning_product_chi_zero stW2 hc (gsoResidual stW2 [] 0 0)
    (gsoResidual stW2 [] 0 0)
  refine ⟨hp0, ?_⟩
  rw [C7_gso_zero_norm stW2 [] 0 0 hp0, stW2_t_len]
  rfl

/-- C3: `NAFF.frequency` raises exactly when the early FFT guard does
not fire and both constrained-minimization attempts (warm start, cap 50;
midpoint retry, cap 100) report a nonzero exit status; the raised error
carries the solver status of the failed retry, and a failed refinement
never produces a frequency value. -/
theorem C3_frequency_error_iff (st : NAFF) (oc : Oracles) (f : List ℂ) :
    ((∃ e, st.frequency oc f = .error e) ↔
      (¬ earlyCond oc f ∧ (slsqpFirst st oc f).2 ≠ 0 ∧
        (slsqpSecond st oc f).2 ≠ 0)) ∧
    (∀ e, st.frequency oc f = .error e →
      e = .refinement (slsqpSecond st oc f).2) := by
  unfold NAFF.frequency
  by_cases h1 : earlyCond oc f
  · simp [h1]
  · by_cases h2 : (slsqpFirst st oc f).2 = 0
    · simp [h1, h2]
    · by_cases h3 : (slsqpSecond st oc f).2 = 0
      · simp [h1, h2, h3]
      · simp [h1, h2, h3]

theorem ocFail_not_early : ¬ earlyCond ocFail [(1 : ℂ), 1] := by
  have h2 : (0 : ℝ) < Real.sqrt 2 := Real.sqrt_pos.2 (by norm_num)
  unfold earlyCond wmaxOf xfOf yfOf ocFail argmaxFrom
  simp only [List.length_cons, List.length_nil]
  norm_num [List.range_succ, Real.sqrt_one]

/-- Witness for C3: with an always-failing minimizer oracle and a
non-degenerate spectrum, both attempts report status 1 and `frequency`
raises. -/
theorem C3_witness :
    (¬ earlyCond ocFail [(1 : ℂ), 1] ∧
      (slsqpFirst stW2 ocFail [(1 : ℂ), 1]).2 ≠ 0 ∧
      (slsqpSecond stW2 ocFail [(1 : ℂ), 1]).2 ≠ 0) ∧
    (∃ e, stW2.frequency ocFail [(1 : ℂ), 1] = .error e) := by
  have h : ¬ earlyCond ocFail [(1 : ℂ), 1] ∧
      (slsqpFirst stW2 ocFail [(1 : ℂ), 1]).2 ≠ 0 ∧
      (slsqpSecond stW2 ocFail [(1 : ℂ), 1]).2 ≠ 0 :=
    ⟨ocFail_not_early, by decide, by decide⟩
  exact ⟨h, (C3_frequency_error_iff stW2 ocFail [(1 : ℂ), 1]).1.mpr h⟩


theorem frecLoop_length_le (st : NAFF) (oc : Oracles) (bc : Option ℝ) :
    ∀ (fuel : ℕ) (fk : List ℂ) (ecap : List (List ℂ)) (steps : List FrecStep),
      frecLoop st oc bc fuel fk ecap = .ok steps → steps.length ≤ fuel := by
  intro fuel
  induction fuel with
  | zero =>
    intro fk ecap steps h
    simp only [frecLoop, Except.ok.injEq] at h
    simp [← h]
  | succ n ih =>
    intro fk ecap steps h
    rw [frecLoop] at h
    split at h
    · exact absurd h (by simp)
    · rename_i s fk1 heq
      split at h
      · rename_i hbrk
        simp only [Except.ok.injEq] at h
        simp [← h]
      · rename_i hbrk
        split at h
        · exact absurd h (by simp)
        · rename_i rest hr
          simp only [Except.ok.injEq] at h
          have := ih fk1 (ecap ++ [s.e]) rest hr
          simp only [← h, List.length_cons]
          omega

theorem frecLoop_length_pos (st : NAFF) (oc : Oracles) (bc : Option ℝ)
    (fuel : ℕ) (fk : List ℂ) (ecap : List (List ℂ)) (steps : List FrecStep)
    (h : frecLoop st oc bc fuel fk ecap = .ok steps) (hf : 1 ≤ fuel) :
    1 ≤ steps.length := by
  cases fuel with
  | zero => omega
  | succ n =>
    rw [frecLoop] at h
    split at h
    · exact absurd h (by simp)
    · rename_i s fk1 heq
      split at h
      · rename_i hbrk
        simp only [Except.ok.injEq] at h
        simp [← h]
      · rename_i hbrk
        split at h
        · exact absurd h (by simp)
        · rename_i rest hr
          simp only [Except.ok.injEq] at h
          simp [← h]

theorem frecLoop_no_break_mid (st : NAFF) (oc : Oracles) (bc : Option ℝ) :
    ∀ (fuel : ℕ) (fk : List ℂ) (ecap : List (List ℂ)) (steps : List FrecStep),
      frecLoop st oc bc fuel fk ecap = .ok steps →
      ∀ i, i + 1 < steps.length → ¬ brkCond bc (steps.getD i default) := by
  intro fuel
  induction fuel with
  | zero =>
    intro fk ecap steps h
    simp only [frecLoop, Except.ok.injEq] at h
    simp [← h]
  | succ n ih =>
    intro fk ecap steps h
    rw [frecLoop] at h
    split at h
    · exact absurd h (by simp)
    · rename_i s fk1 heq
      split at h
      · rename_i hbrk
        simp only [Except.ok.injEq] at h
        intro i hi
        rw [← h] at hi
        simp only [List.length_singleton] at hi
        omega
      · rename_i hbrk
        split at h
        · exact absurd h (by simp)
        · rename_i rest hr
          simp only [Except.ok.injEq] at h
          intro i hi
          rw [← h] at hi ⊢
          cases i with
          | zero => simpa using hbrk
          | succ m =>
            simp only [List.getD_cons_succ]
            exact ih fk1 (ecap ++ [s.e]) rest hr m (by simpa using hi)

theorem frecLoop_break_first (st : NAFF) (oc : Oracles) (bc : Option ℝ)
    (fuel : ℕ) (fk : List ℂ) (ecap : List (List ℂ)) (steps : List FrecStep)
    (h : frecLoop st oc bc fuel fk ecap = .ok steps) (hne : steps ≠ [])
    (hbk : brkCond bc (steps.getD 0 default)) : steps.length = 1 := by
  cases fuel with
  | zero =>
    simp only [frecLoop, Except.ok.injEq] at h
    exact absurd h.symm hne
  | succ n =>
    rw [frecLoop] at h
    split at h
    · exact absurd h (by simp)
    · rename_i s fk1 heq
      split at h
      · rename_i hbrk
        simp only [Except.ok.injEq] at h
        simp [← h]
      · rename_i hbrk
        split at h
        · exact absurd h (by simp)
        · rename_i rest hr
          simp only [Except.ok.injEq] at h
          rw [← h] at hbk
          simp only [List.getD_cons_zero] at hbk
          exact absurd hbk hbrk

/-- C4: with break threshold `ε`, `frecoder` performs iteration `k+1`
only when iteration `k` left both the residual peak `fmax` and the
extracted amplitude `A[k]` at or above `ε`; it performs at most
`nintvec` iterations; and when the first iteration already has both
quantities below `ε` it stops after exactly one iteration, the returned
component count matching the completed iteration count. -/
theorem C4_frecoder_stopping (st : NAFF) (oc : Oracles) (f : List ℂ)
    (ε : ℝ) (nintvec : ℕ) (steps : List FrecStep)
    (hok : frecTrace st oc f nintvec (some ε) = .ok steps) :
    steps.length ≤ nintvec ∧
    (∀ i, i + 1 < steps.length →
      ε ≤ (steps.getD i default).fmax ∧ ε ≤ (steps.getD i default).A) ∧
    (1 ≤ nintvec →
      (steps.getD 0 default).fmax < ε ∨ (steps.getD 0 default).A < ε →
      steps.length = 1) ∧
    (∀ out, st.frecoder oc f nintvec (some ε) = .ok out →
      out.1.length = steps.length) := by
  refine ⟨frecLoop_length_le st oc (some ε) nintvec f [] steps hok, ?_, ?_, ?_⟩
  · intro i hi
    have hnb := frecLoop_no_break_mid st oc (some ε) nintvec f [] steps hok i hi
    simp only [brkCond] at hnb
    push_neg at hnb
    exact hnb
  · intro hn hlt
    have hpos := frecLoop_length_pos st oc (some ε) nintvec f [] steps hok hn
    have hne : steps ≠ [] := by
      intro hcon
      rw [hcon] at hpos
      simp at hpos
    exact frecLoop_break_first st oc (some ε) nintvec f [] steps hok hne
      (by simpa [brkCond] using hlt)
  · intro out hout
    unfold NAFF.frecoder at hout
    by_cases hz : nintvec = 0
    · rw [if_pos hz] at hout
      exact absurd hout (by simp)
    · rw [if_neg hz] at hout
      rw [hok] at hout
      simp only [Except.ok.injEq] at hout
      rw [← hout]
      simp

/-- C10: `frecoder` with `nintvec ≥ 1` always completes at least one
iteration, so each returned sequence has length between 1 and
`nintvec`; with `nintvec = 0` it raises the unbound-loop-variable
`NameError` at the return statement instead of returning empty
sequences. -/
theorem C10_frecoder_length (st : NAFF) (oc : Oracles) (f : List ℂ)
    (bc : Option ℝ) (nintvec : ℕ) :
    (nintvec = 0 → st.frecoder oc f nintvec bc = .error .nameErr) ∧
    (∀ out, st.frecoder oc f nintvec bc = .ok out →
      1 ≤ out.1.length ∧ out.1.length ≤ nintvec ∧
      out.2.1.length = out.1.length ∧ out.2.2.length = out.1.length) := by
  constructor
  · intro hz
    unfold NAFF.frecoder
    rw [if_pos hz]
  · intro out hout
    unfold NAFF.frecoder at hout
    by_cases hz : nintvec = 0
    · rw [if_pos hz] at hout
      exact absurd hout (by simp)
    · rw [if_neg hz] at hout
      cases hT : frecTrace st oc f nintvec bc with
      | error e => rw [hT] at hout; exact absurd hout (by simp)
      | ok steps =>
        rw [hT] at hout
        simp only [Except.ok.injEq] at hout
        have h1 := frecLoop_length_pos st oc bc nintvec f [] steps hT
          (Nat.one_le_iff_ne_zero.2 hz)
        have h2 := frecLoop_length_le st oc bc nintvec f [] steps hT
        rw [← hout]
        simpa using ⟨h1, h2⟩

theorem ocZero_early : earlyCond ocZero [(1 : ℂ), 1] := by
  unfold earlyCond wmaxOf xfOf yfOf ocZero argmaxFrom
  norm_num [List.range_succ]

theorem ocZero_frequency : stW2.frequency ocZero [(1 : ℂ), 1] = .ok 0 := by
  unfold NAFF.frequency
  rw [if_pos ocZero_early]

theorem rawExp_stW2_zero : rawExp stW2 0 = [(1 : ℂ), 1] := by
  unfold rawExp
  show List.map _ [(0 : ℝ), 2] = _
  simp

theorem arctan2_zero : arctan2 0 0 = 0 := by
  unfold arctan2
  have h : (⟨0, 0⟩ : ℂ) = 0 := Complex.ext rfl rfl
  rw [h, Complex.arg_zero]

theorem stW2_hp_zero (u v : List ℂ) : stW2.hanning_product u v = 0 :=
  hanning_product_chi_zero stW2
    (by rw [stW2_chi]; intro x hx; simpa using hx) u v

theorem frecBody_eval :
    frecBody stW2 ocZero [(1 : ℂ), 1] [] =
      .ok (⟨0, 0, 0, 1, [(1 : ℂ), 1]⟩, [(1 : ℂ), 1]) := by
  unfold frecBody
  rw [ocZero_frequency]
  simp only [List.isEmpty_nil, if_true, rawExp_stW2_zero, stW2_hp_zero,
    NAFF.sub_chi]
  norm_num [arctan2_zero]

theorem frecTrace_eval :
    frecTrace stW2 ocZero [(1 : ℂ), 1] 5 (some 2) =
      .ok [⟨0, 0, 0, 1, [(1 : ℂ), 1]⟩] := by
  unfold frecTrace
  rw [frecLoop, frecBody_eval]
  dsimp only
  rw [if_pos (by norm_num [brkCond])]

theorem frecoder_eval :
    stW2.frecoder ocZero [(1 : ℂ), 1] 5 (some 2) = .ok ([0], [0], [0]) := by
  unfold NAFF.frecoder
  rw [if_neg (by norm_num), frecTrace_eval]
  norm_num

/-- Witness for C4: a concrete run whose first iteration has residual
peak 1 and amplitude 0, both below the threshold 2, stops after exactly
one iteration. -/
theorem C4_witness :
    frecTrace stW2 ocZero [(1 : ℂ), 1] 5 (some 2) =
        .ok [⟨0, 0, 0, 1, [(1 : ℂ), 1]⟩] ∧
    ([(⟨0, 0, 0, 1, [(1 : ℂ), 1]⟩ : FrecStep)].length ≤ 5 ∧
      (∀ i, i + 1 < [(⟨0, 0, 0, 1, [(1 : ℂ), 1]⟩ : FrecStep)].length →
        (2 : ℝ) ≤ ([(⟨0, 0, 0, 1, [(1 : ℂ), 1]⟩ : FrecStep)].getD i default).fmax ∧
        (2 : ℝ) ≤ ([(⟨0, 0, 0, 1, [(1 : ℂ), 1]⟩ : FrecStep)].getD i default).A)) ∧
    [(⟨0, 0, 0, 1, [(1 : ℂ), 1]⟩ : FrecStep)].length = 1 := by
  have hC := C4_frecoder_stopping stW2 ocZero [(1 : ℂ), 1] 2 5
    [⟨0, 0, 0, 1, [(1 : ℂ), 1]⟩] frecTrace_eval
  exact ⟨frecTrace_eval, ⟨hC.1, hC.2.1⟩,
    hC.2.2.1 (by norm_num) (by norm_num)⟩

/-- Witness for C10: with `nintvec = 0` the concrete run raises the
`NameError`; with `nintvec = 5` and an immediately-firing break it
returns sequences of length exactly 1. -/
theorem C10_witness :
    stW2.frecoder ocZero [(1 : ℂ), 1] 0 (some 2) = .error .nameErr ∧
    (1 ≤ ([(0 : ℝ)] : List ℝ).length ∧ ([(0 : ℝ)] : List ℝ).length ≤ 5 ∧
      ([(0 : ℝ)] : List ℝ).length = ([(0 : ℝ)] : List ℝ).length ∧
      ([(0 : ℝ)] : List ℝ).length = ([(0 : ℝ)] : List ℝ).length) := by
  refine ⟨(C10_frecoder_length stW2 ocZero [(1 : ℂ), 1] (some 2) 0).1 rfl, ?_⟩
  exact (C10_frecoder_length stW2 ocZero [(1 : ℂ), 1] (some 2) 5).2
    ([0], [0], [0]) frecoder_eval

/-- Counterexample for C6: the even-length grid `[0,1,2,3]` is accepted
by the constructor unchanged — it is neither rejected nor padded. -/
theorem C6_counterexample :
    NAFF.init [(0 : ℝ), 1, 2, 3] = some (stOf [(0 : ℝ), 1, 2, 3]) ∧
    (stOf [(0 : ℝ), 1, 2, 3]).t = [(0 : ℝ), 1, 2, 3] ∧
    [(0 : ℝ), 1, 2, 3].length % 2 = 0 := by
  refine ⟨?_, rfl, rfl⟩
  unfold NAFF.init
  rw [if_neg (by simp)]

/-- C6 amended: the constructor validates nothing beyond nonemptiness:
every nonempty time array — even-length ones included — is accepted with
the stored grid identical to the input (the quadrature itself copes with
even-length grids through the averaged trapezoid-corrected rule). -/
theorem C6_amended_no_validation (t : List ℝ) (h : t ≠ []) :
    NAFF.init t = some (stOf t) ∧ (stOf t).t = t := by
  refine ⟨?_, rfl⟩
  unfold NAFF.init
  rw [if_neg (by simpa using h)]

/-- Witness for C6 amended at the even-length grid `[0,1,2,3]`. -/
theorem C6_witness :
    ([(0 : ℝ), 1, 2, 3] ≠ ([] : List ℝ)) ∧
    (NAFF.init [(0 : ℝ), 1, 2, 3] = some (stOf [(0 : ℝ), 1, 2, 3]) ∧
      (stOf [(0 : ℝ), 1, 2, 3]).t = [(0 : ℝ), 1, 2, 3]) :=
  ⟨by simp, C6_amended_no_validation [(0 : ℝ), 1, 2, 3] (by simp)⟩

theorem argminFrom_lt_length : ∀ (l : List ℝ), l ≠ [] → argminFrom l < l.length := by
  intro l
  induction l with
  | nil => intro h; exact absurd rfl h
  | cons x xs ih =>
    intro _
    cases xs with
    | nil => simp [argminFrom]
    | cons y ys =>
      rw [argminFrom]
      by_cases hc : x ≤ (y :: ys).getD (argminFrom (y :: ys)) 0
      · rw [if_pos hc]
        simp
      · rw [if_neg hc]
        have := ih (by simp)
        simpa using this

theorem argminFrom_min : ∀ (l : List ℝ) (i : ℕ), i < l.length →
    l.getD (argminFrom l) 0 ≤ l.getD i 0 := by
  intro l
  induction l with
  | nil => intro i hi; simp at hi
  | cons x xs ih =>
    intro i hi
    cases xs with
    | nil =>
      simp only [List.length_cons, List.length_nil] at hi
      cases i with
      | zero => simp [argminFrom]
      | succ m => exact absurd hi (by omega)
    | cons y ys =>
      rw [argminFrom]
      by_cases hc : x ≤ (y :: ys).getD (argminFrom (y :: ys)) 0
      · rw [if_pos hc]
        cases i with
        | zero => simp
        | succ m =>
          simp only [List.getD_cons_zero, List.getD_cons_succ]
          exact le_trans hc (ih m (by simpa using hi))
      · rw [if_neg hc]
        cases i with
        | zero =>
          simp only [List.getD_cons_zero, List.getD_cons_succ]
          exact le_of_lt (lt_of_not_le hc)
        | succ m =>
          simp only [List.getD_cons_succ]
          exact ih m (by simpa using hi)

theorem mem_intRange (imax : ℕ) (a : ℤ) :
    a ∈ intRange imax ↔ -(imax : ℤ) ≤ a ∧ a ≤ imax := by
  unfold intRange
  rw [List.mem_map]
  constructor
  · rintro ⟨i, hi, hieq⟩
    rw [List.mem_range] at hi
    omega
  · intro h
    refine ⟨(a + imax).toNat, ?_, ?_⟩
    · rw [List.mem_range]
      omega
    · omega

theorem mem_nvecs (m imax : ℕ) (n : List ℤ) (h : n ∈ nvecs m imax) :
    n.length = m ∧ ∀ a ∈ n, -(imax : ℤ) ≤ a ∧ a ≤ imax := by
  induction m generalizing n with
  | zero =>
    simp only [nvecs, List.mem_singleton] at h
    simp [h]
  | succ k ih =>
    simp only [nvecs, List.mem_flatMap, List.mem_map] at h
    obtain ⟨v, hv, n', hn', rfl⟩ := h
    obtain ⟨hl, hb⟩ := ih n' hn'
    refine ⟨by simp [hl], ?_⟩
    intro a ha
    rcases List.mem_cons.1 ha with rfl | ha
    · exact (mem_intRange imax a).1 hv
    · exact hb a ha

theorem replicate_zero_mem_nvecs (m imax : ℕ) :
    List.replicate m (0 : ℤ) ∈ nvecs m imax := by
  induction m with
  | zero => simp [nvecs]
  | succ k ih =>
    rw [List.replicate_succ]
    simp only [nvecs, List.mem_flatMap]
    refine ⟨0, ?_, List.mem_map.2 ⟨List.replicate k 0, ih, rfl⟩⟩
    rw [mem_intRange]
    omega

theorem nvecs_ne_nil (m imax : ℕ) : nvecs m imax ≠ [] :=
  List.ne_nil_of_mem (replicate_zero_mem_nvecs m imax)

theorem getD_map_of_lt {α β : Type} (g : α → β) (l : List α) (i : ℕ)
    (h : i < l.length) (da : α) (db : β) :
    (l.map g).getD i db = g (l.getD i da) := by
  rw [List.getD_eq_getElem?_getD, List.getD_eq_getElem?_getD,
    List.getElem?_map, List.getElem?_eq_getElem h]
  simp

theorem getD_mem_of_lt {α : Type} (l : List α) (i : ℕ) (h : i < l.length)
    (d : α) : l.getD i d ∈ l := by
  rw [List.getD_eq_getElem?_getD, List.getElem?_eq_getElem h]
  exact List.getElem_mem h

/-- C9: for each table row, the tuple returned by
`find_integer_vectors` comes from the `{-imax..imax}^m` lattice and
attains the minimum of `|freq - n . ffreqs|` over the whole lattice; in
particular, when the row's frequency is an exact lattice combination,
the attained residual is 0. -/
theorem C9_find_integer_vectors_min (ffreqs : List ℝ) (d : List Comp)
    (imax : ℕ) (i : ℕ) (hi : i < d.length) :
    (NAFF.find_integer_vectors ffreqs d imax).getD i [] ∈
        nvecs ffreqs.length imax ∧
    ((NAFF.find_integer_vectors ffreqs d imax).getD i []).length =
        ffreqs.length ∧
    (∀ a ∈ (NAFF.find_integer_vectors ffreqs d imax).getD i [],
        -(imax : ℤ) ≤ a ∧ a ≤ imax) ∧
    (∀ n ∈ nvecs ffreqs.length imax,
      |(d.getD i default).freq -
          dotIF ((NAFF.find_integer_vectors ffreqs d imax).getD i []) ffreqs| ≤
        |(d.getD i default).freq - dotIF n ffreqs|) ∧
    (∀ n0 ∈ nvecs ffreqs.length imax,
      (d.getD i default).freq = dotIF n0 ffreqs →
      |(d.getD i default).freq -
          dotIF ((NAFF.find_integer_vectors ffreqs d imax).getD i []) ffreqs| =
        0) := by
  have hmap : (NAFF.find_integer_vectors ffreqs d imax).getD i [] =
      (fun c : Comp =>
        (nvecs ffreqs.length imax).getD
          (argminFrom ((nvecs ffreqs.length imax).map fun n =>
            |c.freq - dotIF n ffreqs|)) []) (d.getD i default) := by
    unfold NAFF.find_integer_vectors
    exact getD_map_of_lt _ d i hi default []
  set c := d.getD i default with hc
  set vecs := nvecs ffreqs.length imax with hv
  set errs := vecs.map fun n => |c.freq - dotIF n ffreqs| with herrs
  have hvne : vecs ≠ [] := nvecs_ne_nil ffreqs.length imax
  have herrne : errs ≠ [] := by
    rw [herrs]
    simpa using hvne
  have hargmin : argminFrom errs < errs.length := argminFrom_lt_length errs herrne
  have hlen : errs.length = vecs.length := by rw [herrs]; simp
  have hargv : argminFrom errs < vecs.length := by omega
  have hvmem : (NAFF.find_integer_vectors ffreqs d imax).getD i [] ∈ vecs := by
    rw [hmap]
    exact getD_mem_of_lt vecs _ hargv []
  have hdot : ∀ k, k < vecs.length →
      errs.getD k 0 = |c.freq - dotIF (vecs.getD k []) ffreqs| := by
    intro k hk
    rw [herrs]
    exact getD_map_of_lt _ vecs k hk []  0
  have hminval : |c.freq -
      dotIF ((NAFF.find_integer_vectors ffreqs d imax).getD i []) ffreqs| =
      errs.getD (argminFrom errs) 0 := by
    rw [hmap, hdot (argminFrom errs) hargv]
  have hminall : ∀ n ∈ vecs,
      |c.freq - dotIF ((NAFF.find_integer_vectors ffreqs d imax).getD i [])
          ffreqs| ≤ |c.freq - dotIF n ffreqs| := by
    intro n hn
    rcases List.getElem_of_mem hn with ⟨k, hk, hkeq⟩
    have hgd : vecs.getD k [] = n := by
      rw [List.getD_eq_getElem?_getD, List.getElem?_eq_getElem hk, hkeq]
      rfl
    rw [hminval, ← hgd, ← hdot k hk]
    exact argminFrom_min errs k (by omega)
  obtain ⟨hvlen, hvbnd⟩ := mem_nvecs ffreqs.length imax _ hvmem
  refine ⟨hvmem, hvlen, hvbnd, hminall, ?_⟩
  intro n0 hn0 heq
  have h1 := hminall n0 hn0
  have h0 : |c.freq - dotIF n0 ffreqs| = 0 := by rw [heq, sub_self, abs_zero]
  rw [h0] at h1
  exact le_antisymm h1 (abs_nonneg _)

/-- Witness for C9 at a one-fundamental table: `ffreqs = [1]`, one row
with frequency 2, `imax = 2`. -/
theorem C9_witness :
    (0 < ([⟨2, 0, 0, 0, 0⟩] : List Comp).length) ∧
    ((NAFF.find_integer_vectors [1] [⟨2, 0, 0, 0, 0⟩] 2).getD 0 [] ∈
        nvecs ([(1 : ℝ)]).length 2 ∧
      ((NAFF.find_integer_vectors [1] [⟨2, 0, 0, 0, 0⟩] 2).getD 0 []).length =
        ([(1 : ℝ)]).length ∧
      (∀ a ∈ (NAFF.find_integer_vectors [1] [⟨2, 0, 0, 0, 0⟩] 2).getD 0 [],
          -(2 : ℤ) ≤ a ∧ a ≤ 2) ∧
      (∀ n ∈ nvecs ([(1 : ℝ)]).length 2,
        |(([⟨2, 0, 0, 0, 0⟩] : List Comp).getD 0 default).freq -
            dotIF ((NAFF.find_integer_vectors [1] [⟨2, 0, 0, 0, 0⟩] 2).getD 0 [])
              [1]| ≤
          |(([⟨2, 0, 0, 0, 0⟩] : List Comp).getD 0 default).freq -
            dotIF n [1]|) ∧
      (∀ n0 ∈ nvecs ([(1 : ℝ)]).length 2,
        (([⟨2, 0, 0, 0, 0⟩] : List Comp).getD 0 default).freq = dotIF n0 [1] →
        |(([⟨2, 0, 0, 0, 0⟩] : List Comp).getD 0 default).freq -
            dotIF ((NAFF.find_integer_vectors [1] [⟨2, 0, 0, 0, 0⟩] 2).getD 0 [])
              [1]| = 0)) :=
  ⟨by norm_num, C9_find_integer_vectors_min [1] [⟨2, 0, 0, 0, 0⟩] 2 0 (by norm_num)⟩

theorem firstWhere_sound (p : Comp → Prop) [DecidablePred p] :
    ∀ (l : List Comp) (i : ℕ) (c : Comp), firstWhere p l = some (i, c) →
      i < l.length ∧ l.getD i default = c ∧ p c := by
  intro l
  induction l with
  | nil => intro i c h; simp [firstWhere] at h
  | cons a as ih =>
    intro i c h
    rw [firstWhere] at h
    by_cases hp : p a
    · rw [if_pos hp] at h
      simp only [Option.some.injEq, Prod.mk.injEq] at h
      obtain ⟨h1, h2⟩ := h
      rw [← h1, ← h2]
      exact ⟨by simp, by simp, hp⟩
    · rw [if_neg hp] at h
      cases hfw : firstWhere p as with
      | none => rw [hfw] at h; simp at h
      | some q =>
        rw [hfw] at h
        simp only [Option.map_some', Option.some.injEq] at h
        obtain ⟨j, c'⟩ := q
        simp only [Prod.mk.injEq] at h
        obtain ⟨h1, h2⟩ := h
        obtain ⟨hj1, hj2, hj3⟩ := ih j c' hfw
        rw [← h1, ← h2]
        refine ⟨by simpa using hj1, by simpa using hj2, hj3⟩

theorem argsortNat_length (l : List ℕ) : (argsortNat l).length = l.length := by
  unfold argsortNat
  rw [List.length_insertionSort, List.length_range]

theorem reorderBy_length {α : Type} (nqs : List ℕ) (vals : List α) (dflt : α) :
    (reorderBy nqs vals dflt).length = nqs.length := by
  unfold reorderBy
  rw [List.length_map, argsortNat_length]

theorem reorderBy_getD {α : Type} (nqs : List ℕ) (vals : List α) (dflt : α)
    (i : ℕ) (hi : i < nqs.length) :
    (reorderBy nqs vals dflt).getD i dflt =
      vals.getD ((argsortNat nqs).getD i 0) dflt := by
  unfold reorderBy
  exact getD_map_of_lt _ (argsortNat nqs) i (by rwa [argsortNat_length]) 0 dflt

theorem coverage_bound (a b c : ℕ) (h : coverageOK a b c) :
    ∀ x ∈ [a, b, c], x < 3 := by
  intro x hx
  have hmem : x ∈ (List.insertionSort (· ≤ ·) [a, b, c]).dedup := by
    rw [List.mem_dedup]
    exact (List.perm_insertionSort (· ≤ ·) [a, b, c]).symm.subset hx
  rw [h] at hmem
  have : x = 0 ∨ x = 1 ∨ x = 2 := by simpa using hmem
  omega

theorem argsort3_prop (a b c : ℕ) (h : coverageOK a b c) :
    ∀ i, i < 3 → (argsortNat [a, b, c]).getD i 0 < 3 ∧
      [a, b, c].getD ((argsortNat [a, b, c]).getD i 0) 0 = i := by
  have hb := coverage_bound a b c h
  have ha3 : a < 3 := hb a (by simp)
  have hb3 : b < 3 := hb b (by simp)
  have hc3 : c < 3 := hb c (by simp)
  unfold coverageOK at h
  interval_cases a <;> interval_cases b <;> interval_cases c <;>
    first
      | exact absurd h (by decide)
      | decide

/-- C5: for `ndim = 3`, a normal return of
`find_fundamental_frequencies` passes through the selection stage, and
every normal selection result assigns all three fundamentals, each
drawn from a table row whose source-dimension tag equals the entry's
position after reordering (so dimensions 0, 1, 2 are covered exactly);
failures surface as errors rather than partial results. -/
theorem C5_find_fundamental_three :
    (∀ (st : NAFF) (oc : Oracles) (fs : List (List ℂ)) (nintvec : ℕ)
        (bc : Option ℝ) (out : List ℝ × List Comp × List ℕ),
      fs.length = 3 →
      NAFF.find_fundamental_frequencies st oc fs nintvec bc = .ok out →
      select out.2.1 3 = .ok (out.1, out.2.2)) ∧
    (∀ (d : List Comp) (ff : List ℝ) (ixes : List ℕ),
      select d 3 = .ok (ff, ixes) →
      ff.length = 3 ∧ ixes.length = 3 ∧
      ∀ i, i < 3 → ∃ j, j < d.length ∧ ixes.getD i 0 = j ∧
        (d.getD j default).n = i ∧
        ff.getD i 0 = (d.getD j default).freq) := by
  constructor
  · intro st oc fs nintvec bc out hlen h
    unfold NAFF.find_fundamental_frequencies at h
    rw [hlen] at h
    split at h
    · exact absurd h (by simp)
    · rename_i runs hruns
      dsimp only at h
      split at h
      · exact absurd h (by simp)
      · rename_i ffreq ixes hsel
        simp only [Except.ok.injEq] at h
        rw [← h]
        simpa using hsel
  · intro d ff ixes h
    unfold select at h
    split at h
    · exact absurd h (by simp)
    · rename_i i0 c0 hw0
      rw [if_neg (by norm_num)] at h
      split at h
      · exact absurd h (by simp)
      · rename_i i1 c1 hw1
        rw [if_neg (by norm_num)] at h
        split at h
        · exact absurd h (by simp)
        · rename_i i2 c2 hw2
          split at h
          · rename_i hcov
            simp only [Except.ok.injEq, Prod.mk.injEq] at h
            obtain ⟨hff, hix⟩ := h
            obtain ⟨hl0, hd0, hp0⟩ := firstWhere_sound selP1 d i0 c0 hw0
            obtain ⟨hl1, hd1, hp1⟩ := firstWhere_sound _ d i1 c1 hw1
            obtain ⟨hl2, hd2, hp2⟩ := firstWhere_sound _ d i2 c2 hw2
            have hargs := argsort3_prop c0.n c1.n c2.n hcov
            refine ⟨by rw [← hff, reorderBy_length]; rfl,
              by rw [← hix, reorderBy_length]; rfl, ?_⟩
            intro i hi
            obtain ⟨hk3, hkeq⟩ := hargs i hi
            have hixi : ixes.getD i 0 =
                [i0, i1, i2].getD ((argsortNat [c0.n, c1.n, c2.n]).getD i 0) 0 := by
              rw [← hix]
              exact reorderBy_getD [c0.n, c1.n, c2.n] [i0, i1, i2] 0 i (by simpa using hi)
            have hffi : ff.getD i 0 =
                [c0.freq, c1.freq, c2.freq].getD
                  ((argsortNat [c0.n, c1.n, c2.n]).getD i 0) 0 := by
              rw [← hff]
              exact reorderBy_getD [c0.n, c1.n, c2.n] [c0.freq, c1.freq, c2.freq] 0 i
                (by simpa using hi)
            interval_cases hkc : ((argsortNat [c0.n, c1.n, c2.n]).getD i 0)
            · refine ⟨i0, hl0, by simpa using hixi, ?_, ?_⟩
              · rw [hd0]; simpa using hkeq
              · rw [hd0]; simpa using hffi
            · refine ⟨i1, hl1, by simpa using hixi, ?_, ?_⟩
              · rw [hd1]; simpa using hkeq
              · rw [hd1]; simpa using hffi
            · refine ⟨i2, hl2, by simpa using hixi, ?_, ?_⟩
              · rw [hd2]; simpa using hkeq
              · rw [hd2]; simpa using hffi
          · exact absurd h (by simp)

theorem argmax_0c (c : ℝ) (hc : 0 < c) : argmaxFrom [0, c] = 1 := by
  rw [argmaxFrom]
  rw [show argmaxFrom [c] = 0 from rfl]
  rw [if_neg (by simpa using hc.not_le)]

theorem argmax_0c0 (c : ℝ) (hc : 0 < c) : argmaxFrom [0, c, 0] = 1 := by
  have h1 : argmaxFrom [c, 0] = 0 := by
    rw [argmaxFrom]
    rw [show argmaxFrom [(0 : ℝ)] = 0 from rfl]
    rw [if_pos (by simpa using hc.le)]
  rw [argmaxFrom, h1]
  rw [if_neg (by simpa using hc.not_le)]

theorem argmax_0c00 (c : ℝ) (hc : 0 < c) : argmaxFrom [0, c, 0, 0] = 1 := by
  have h0 : argmaxFrom [(0 : ℝ), 0] = 0 := by
    rw [argmaxFrom]
    rw [show argmaxFrom [(0 : ℝ)] = 0 from rfl]
    rw [if_pos (by simp)]
  have h1 : argmaxFrom [c, 0, 0] = 0 := by
    rw [argmaxFrom, h0]
    rw [if_pos (by simpa using hc.le)]
  rw [argmaxFrom, h1]
  rw [if_neg (by simpa using hc.not_le)]

theorem wmax_fA : wmaxOf ocSpike fA = 1 := by
  have hpos : (0 : ℝ) < |Real.sqrt 2 / 2| := by positivity
  unfold wmaxOf xfOf yfOf ocSpike fA
  norm_num [List.range_succ]
  exact argmax_0c _ hpos

theorem wmax_fB : wmaxOf ocSpike fB = 1 := by
  have hpos : (0 : ℝ) < |(Real.sqrt 2)⁻¹ * (Real.sqrt 3 / 3)| := by positivity
  unfold wmaxOf xfOf yfOf ocSpike fB
  norm_num [List.range_succ]
  exact argmax_0c0 _ hpos

theorem wmax_fC : wmaxOf ocSpike fC = 1 := by
  have hpos : (0 : ℝ) < |(Real.sqrt 3)⁻¹ * (Real.sqrt 4 / 4)| := by positivity
  unfold wmaxOf xfOf yfOf ocSpike fC
  norm_num [List.range_succ]
  exact argmax_0c00 _ hpos

theorem fA_not_early : ¬ earlyCond ocSpike fA := by
  unfold earlyCond
  rw [wmax_fA]
  unfold xfOf ocSpike fA
  norm_num [List.range_succ]

theorem fB_not_early : ¬ earlyCond ocSpike fB := by
  unfold earlyCond
  rw [wmax_fB]
  unfold xfOf ocSpike fB
  norm_num [List.range_succ]

theorem fC_not_early : ¬ earlyCond ocSpike fC := by
  unfold earlyCond
  rw [wmax_fC]
  unfold xfOf ocSpike fC
  norm_num [List.range_succ]

theorem stW2_T : stW2.T = 1 := by norm_num [stW2, stOf]

theorem freq_fA : stW2.frequency ocSpike fA = .ok (-(Real.pi / 2)) := by
  unfold NAFF.frequency
  rw [if_neg fA_not_early]
  dsimp only
  rw [if_pos (show (slsqpFirst stW2 ocSpike fA).2 = 0 from rfl)]
  congr 1
  rw [show (slsqpFirst stW2 ocSpike fA).1 = 0.5 from rfl]
  unfold ominOf omaxOf
  rw [wmax_fA]
  have homega : (omegasOf stW2 fA).getD 1 0 = 2 * Real.pi * (-1 / 4) := by
    unfold omegasOf fftfreq fA stW2 stOf
    norm_num [List.range_succ]
  rw [homega, stW2_T]
  unfold invtransform
  ring

theorem freq_fB : stW2.frequency ocSpike fB = .ok (Real.pi / 3) := by
  unfold NAFF.frequency
  rw [if_neg fB_not_early]
  dsimp only
  rw [if_pos (show (slsqpFirst stW2 ocSpike fB).2 = 0 from rfl)]
  congr 1
  rw [show (slsqpFirst stW2 ocSpike fB).1 = 0.5 from rfl]
  unfold ominOf omaxOf
  rw [wmax_fB]
  have homega : (omegasOf stW2 fB).getD 1 0 = 2 * Real.pi * (1 / 6) := by
    unfold omegasOf fftfreq fB stW2 stOf
    norm_num [List.range_succ]
  rw [homega, stW2_T]
  unfold invtransform
  ring

theorem freq_fC : stW2.frequency ocSpike fC = .ok (Real.pi / 4) := by
  unfold NAFF.frequency
  rw [if_neg fC_not_early]
  dsimp only
  rw [if_pos (show (slsqpFirst stW2 ocSpike fC).2 = 0 from rfl)]
  congr 1
  rw [show (slsqpFirst stW2 ocSpike fC).1 = 0.5 from rfl]
  unfold ominOf omaxOf
  rw [wmax_fC]
  have homega : (omegasOf stW2 fC).getD 1 0 = 2 * Real.pi * (1 / 8) := by
    unfold omegasOf fftfreq fC stW2 stOf
    norm_num [List.range_succ]
  rw [homega, stW2_T]
  unfold invtransform
  ring

theorem frecBody_fA :
    frecBody stW2 ocSpike fA [] =
      .ok (⟨-(Real.pi / 2), 0, 0, 1, rawExp stW2 (-(Real.pi / 2))⟩,
        [(1 : ℂ), 1]) := by
  unfold frecBody
  rw [freq_fA]
  dsimp only
  rw [show ([] : List (List ℂ)).isEmpty = true from rfl]
  rw [if_pos rfl]
  rw [stW2_hp_zero]
  unfold NAFF.sub_chi
  rw [show rawExp stW2 (-(Real.pi / 2)) =
    [Complex.exp (Complex.I * ((-(Real.pi / 2) : ℝ) : ℂ) * ((0 : ℝ) : ℂ)),
     Complex.exp (Complex.I * ((-(Real.pi / 2) : ℝ) : ℂ) * ((2 : ℝ) : ℂ))]
    from rfl]
  norm_num [arctan2_zero, fA]

theorem frecBody_fB :
    frecBody stW2 ocSpike fB [] =
      .ok (⟨Real.pi / 3, 0, 0, 1, rawExp stW2 (Real.pi / 3)⟩,
        [(1 : ℂ), 1]) := by
  unfold frecBody
  rw [freq_fB]
  dsimp only
  rw [show ([] : List (List ℂ)).isEmpty = true from rfl]
  rw [if_pos rfl]
  rw [stW2_hp_zero]
  unfold NAFF.sub_chi
  rw [show rawExp stW2 (Real.pi / 3) =
    [Complex.exp (Complex.I * ((Real.pi / 3 : ℝ) : ℂ) * ((0 : ℝ) : ℂ)),
     Complex.exp (Complex.I * ((Real.pi / 3 : ℝ) : ℂ) * ((2 : ℝ) : ℂ))]
    from rfl]
  norm_num [arctan2_zero, fB]

theorem frecBody_fC :
    frecBody stW2 ocSpike fC [] =
      .ok (⟨Real.pi / 4, 0, 0, 1, rawExp stW2 (Real.pi / 4)⟩,
        [(1 : ℂ), 1]) := by
  unfold frecBody
  rw [freq_fC]
  dsimp only
  rw [show ([] : List (List ℂ)).isEmpty = true from rfl]
  rw [if_pos rfl]
  rw [stW2_hp_zero]
  unfold NAFF.sub_chi
  rw [show rawExp stW2 (Real.pi / 4) =
    [Complex.exp (Complex.I * ((Real.pi / 4 : ℝ) : ℂ) * ((0 : ℝ) : ℂ)),
     Complex.exp (Complex.I * ((Real.pi / 4 : ℝ) : ℂ) * ((2 : ℝ) : ℂ))]
    from rfl]
  norm_num [arctan2_zero, fC]

theorem trace_fA :
    frecTrace stW2 ocSpike fA 1 (some 2) =
      .ok [⟨-(Real.pi / 2), 0, 0, 1, rawExp stW2 (-(Real.pi / 2))⟩] := by
  unfold frecTrace
  rw [frecLoop, frecBody_fA]
  dsimp only
  rw [if_pos (by norm_num [brkCond])]

theorem trace_fB :
    frecTrace stW2 ocSpike fB 1 (some 2) =
      .ok [⟨Real.pi / 3, 0, 0, 1, rawExp stW2 (Real.pi / 3)⟩] := by
  unfold frecTrace
  rw [frecLoop, frecBody_fB]
  dsimp only
  rw [if_pos (by norm_num [brkCond])]

theorem trace_fC :
    frecTrace stW2 ocSpike fC 1 (some 2) =
      .ok [⟨Real.pi / 4, 0, 0, 1, rawExp stW2 (Real.pi / 4)⟩] := by
  unfold frecTrace
  rw [frecLoop, frecBody_fC]
  dsimp only
  rw [if_pos (by norm_num [brkCond])]

theorem frecoder_fA :
    stW2.frecoder ocSpike fA 1 (some 2) = .ok ([Real.pi / 2], [0], [0]) := by
  unfold NAFF.frecoder
  rw [if_neg (by norm_num), trace_fA]
  norm_num

theorem frecoder_fB :
    stW2.frecoder ocSpike fB 1 (some 2) = .ok ([-(Real.pi / 3)], [0], [0]) := by
  unfold NAFF.frecoder
  rw [if_neg (by norm_num), trace_fB]
  norm_num

theorem frecoder_fC :
    stW2.frecoder ocSpike fC 1 (some 2) = .ok ([-(Real.pi / 4)], [0], [0]) := by
  unfold NAFF.frecoder
  rw [if_neg (by norm_num), trace_fC]
  norm_num

theorem table_fA :
    sortTable (buildTable [([Real.pi / 2], [0], [0])]) =
      [⟨-(Real.pi / 2), 0, 0, 0, 0⟩] := by
  unfold buildTable dimComps
  norm_num [List.enum, List.enumFrom, List.range_succ]
  unfold sortTable
  simp [List.insertionSort, List.orderedInsert]

theorem select_fA :
    select [⟨-(Real.pi / 2), 0, 0, 0, 0⟩] 1 = .ok ([-(Real.pi / 2)], [0]) := by
  have hpi : (3 : ℝ) < Real.pi := Real.pi_gt_three
  have hp2 : (0 : ℝ) < Real.pi / 2 := by linarith
  have hw1 : firstWhere selP1 [(⟨-(Real.pi / 2), 0, 0, 0, 0⟩ : Comp)] =
      some (0, ⟨-(Real.pi / 2), 0, 0, 0, 0⟩) := by
    rw [firstWhere, if_pos]
    unfold selP1
    dsimp only
    rw [abs_neg, abs_of_pos hp2]
    linarith
  unfold select
  rw [hw1]
  norm_num

theorem ffund_fA :
    NAFF.find_fundamental_frequencies stW2 ocSpike [fA] 1 (some 2) =
      .ok ([-(Real.pi / 2)], [⟨-(Real.pi / 2), 0, 0, 0, 0⟩], [0]) := by
  unfold NAFF.find_fundamental_frequencies
  unfold List.mapM List.mapM.loop
  rw [frecoder_fA]
  simp only [Bind.bind, Except.bind]
  unfold List.mapM.loop
  rw [show ([fA] : List (List ℂ)).length = 1 from rfl]
  rw [show (pure [([Real.pi / 2], [0], [0])].reverse :
      Except NaffError (List (List ℝ × List ℝ × List ℝ))) =
    Except.ok [([Real.pi / 2], [0], [0])] from rfl]
  dsimp only
  rw [table_fA, select_fA]

theorem map_getD_range {α β : Type} (l : List α) (f : α → β) (da : α) :
    (List.range l.length).map (fun k => f (l.getD k da)) = l.map f := by
  apply List.ext_getElem
  · simp
  · intro i h1 h2
    simp only [List.getElem_map, List.getElem_range]
    rw [List.getD_eq_getElem?_getD,
      List.getElem?_eq_getElem (by simpa using h2)]
    rfl

theorem dimComps_freq (i : ℕ) (run : List ℝ × List ℝ × List ℝ) :
    (dimComps i run).map (·.freq) = run.1.map fun x => -x := by
  unfold dimComps
  rw [List.map_map]
  exact map_getD_range run.1 (fun x => -x) 0

theorem buildTable_freq_aux :
    ∀ (runs : List (List ℝ × List ℝ × List ℝ)) (k : ℕ),
      ((List.enumFrom k runs).map fun p => dimComps p.1 p.2).flatten.map
          (·.freq) =
        (runs.map fun r => r.1.map fun x => -x).flatten := by
  intro runs
  induction runs with
  | nil => intro k; rfl
  | cons r rs ih =>
    intro k
    simp only [List.enumFrom_cons, List.map_cons, List.flatten_cons,
      List.map_append]
    rw [dimComps_freq, ih]

/-- C1 amended: `frecoder` does record the negated search frequencies
`-nu`, but `find_fundamental_frequencies` negates them once more when it
builds the table, so each table entry's `freq` field is the search
frequency `+nu` — the negation of the value `frecoder` recorded — and
the sorted table is a permutation of those negated entries. -/
theorem C1_table_negates_recorded :
    (∀ (st : NAFF) (oc : Oracles) (f : List ℂ) (nintvec : ℕ)
        (bc : Option ℝ) (steps : List FrecStep), nintvec ≠ 0 →
      frecTrace st oc f nintvec bc = .ok steps →
      st.frecoder oc f nintvec bc =
        .ok (steps.map fun s => -s.nu, steps.map (·.A),
          steps.map (·.phi))) ∧
    (∀ runs : List (List ℝ × List ℝ × List ℝ),
      (buildTable runs).map (·.freq) =
        (runs.map fun r => r.1.map fun x => -x).flatten) ∧
    (∀ d : List Comp, (sortTable d).Perm d) := by
  refine ⟨?_, ?_, ?_⟩
  · intro st oc f nintvec bc steps hnz hok
    unfold NAFF.frecoder
    rw [if_neg hnz, hok]
  · intro runs
    unfold buildTable
    rw [show runs.enum = List.enumFrom 0 runs from rfl]
    exact buildTable_freq_aux runs 0
  · intro d
    exact List.perm_insertionSort _ d

/-- Counterexample for C1: in a concrete run, `frecoder` records the
frequency `pi/2` (the negated search frequency `-(-pi/2)`), yet the
component table built by `find_fundamental_frequencies` holds
`-(pi/2)` — the negation of the recorded value, not the value itself. -/
theorem C1_counterexample :
    stW2.frecoder ocSpike fA 1 (some 2) = .ok ([Real.pi / 2], [0], [0]) ∧
    NAFF.find_fundamental_frequencies stW2 ocSpike [fA] 1 (some 2) =
      .ok ([-(Real.pi / 2)], [⟨-(Real.pi / 2), 0, 0, 0, 0⟩], [0]) ∧
    ([(⟨-(Real.pi / 2), 0, 0, 0, 0⟩ : Comp)].map (·.freq) =
      [-(Real.pi / 2)]) ∧
    -(Real.pi / 2) ≠ (Real.pi / 2 : ℝ) := by
  refine ⟨frecoder_fA, ffund_fA, rfl, ?_⟩
  have := Real.pi_pos
  intro h
  linarith

/-- Witness for C1 amended, at the concrete single-dimension run. -/
theorem C1_witness :
    ((1 : ℕ) ≠ 0 ∧ frecTrace stW2 ocSpike fA 1 (some 2) =
        .ok [⟨-(Real.pi / 2), 0, 0, 1, rawExp stW2 (-(Real.pi / 2))⟩]) ∧
    stW2.frecoder ocSpike fA 1 (some 2) =
      .ok ([(⟨-(Real.pi / 2), 0, 0, 1,
            rawExp stW2 (-(Real.pi / 2))⟩ : FrecStep)].map fun s => -s.nu,
        [(⟨-(Real.pi / 2), 0, 0, 1,
            rawExp stW2 (-(Real.pi / 2))⟩ : FrecStep)].map (·.A),
        [(⟨-(Real.pi / 2), 0, 0, 1,
            rawExp stW2 (-(Real.pi / 2))⟩ : FrecStep)].map (·.phi)) ∧
    (buildTable [([Real.pi / 2], [0], [0])]).map (·.freq) =
      ([([Real.pi / 2], [0], [0])].map fun r => r.1.map fun x => -x).flatten ∧
    (sortTable [(⟨-(Real.pi / 2), 0, 0, 0, 0⟩ : Comp)]).Perm
      [⟨-(Real.pi / 2), 0, 0, 0, 0⟩] :=
  ⟨⟨by norm_num, trace_fA⟩,
   C1_table_negates_recorded.1 stW2 ocSpike fA 1 (some 2) _ (by norm_num)
     trace_fA,
   C1_table_negates_recorded.2.1 _,
   C1_table_negates_recorded.2.2 _⟩

theorem cis_mul_conj (ν τ : ℝ) :
    Complex.exp (Complex.I * (ν : ℂ) * (τ : ℂ)) *
      (starRingEnd ℂ) (Complex.exp (Complex.I * (ν : ℂ) * (τ : ℂ))) = 1 := by
  rw [← Complex.exp_conj, ← Complex.exp_add]
  have h : Complex.I * (ν : ℂ) * (τ : ℂ) +
      (starRingEnd ℂ) (Complex.I * (ν : ℂ) * (τ : ℂ)) = 0 := by
    simp only [map_mul, Complex.conj_I, Complex.conj_ofReal]
    ring
  rw [h, Complex.exp_zero]

theorem integ3_unit_diag :
    ∀ (ts : List ℝ) (χs : List ℝ) (g : ℝ → ℂ),
      (∀ x, g x * (starRingEnd ℂ) (g x) = 1) → χs.length ≤ ts.length →
      integ3 (ts.map g) (ts.map g) χs = χs.map (fun (c : ℝ) => (c : ℂ)) := by
  intro ts
  induction ts with
  | nil =>
    intro χs g hg hl
    cases χs with
    | nil => rfl
    | cons c cs => simp at hl
  | cons t ts ih =>
    intro χs g hg hl
    cases χs with
    | nil => rfl
    | cons c cs =>
      simp only [List.map_cons, integ3, List.cons.injEq]
      exact ⟨by rw [hg t, one_mul], ih cs g hg (by simpa using hl)⟩

/-- C2 amended: at `k = 0` the extraction loop uses the raw exponential
`exp(i nu t)` directly, with no Gram-Schmidt normalization applied, and
its weighted self inner product equals `simps(chi, x=tz)/(2T)` — the
window quadrature, which equals 1 only insofar as the quadrature
approximates the exact integral `2T` (on a degenerate grid it can even
be 0). -/
theorem C2_raw_exponential_at_k0 :
    (∀ (st : NAFF) (oc : Oracles) (fk : List ℂ) (p : FrecStep × List ℂ),
      frecBody st oc fk [] = .ok p →
      ∃ ν, st.frequency oc fk = .ok ν ∧ p.1.e = rawExp st ν ∧ p.1.nu = ν) ∧
    (∀ (st : NAFF) (ν : ℝ), st.chi.length ≤ st.t.length →
      st.hanning_product (rawExp st ν) (rawExp st ν) =
        ((simpson st.chi st.tz / (2 * st.T) : ℝ) : ℂ)) := by
  constructor
  · intro st oc fk p h
    unfold frecBody at h
    split at h
    · exact absurd h (by simp)
    · rename_i ν hfreq
      refine ⟨ν, hfreq, ?_, ?_⟩
      · simp only [Except.ok.injEq] at h
        rw [← h]
        simp
      · simp only [Except.ok.injEq] at h
        rw [← h]
  · intro st ν hlen
    unfold NAFF.hanning_product rawExp
    rw [integ3_unit_diag st.t st.chi _ (fun x => cis_mul_conj ν x) hlen]
    have hre : (st.chi.map (fun (c : ℝ) => (c : ℂ))).map Complex.re = st.chi := by
      rw [List.map_map]
      have : (Complex.re ∘ fun (c : ℝ) => (c : ℂ)) = id := by
        funext x
        simp [Function.comp]
      rw [this, List.map_id]
    have him : (st.chi.map (fun (c : ℝ) => (c : ℂ))).map Complex.im =
        st.chi.map fun _ => (0 : ℝ) := by
      rw [List.map_map]
      rfl
    have hz : ∀ a ∈ st.chi.map (fun _ => (0 : ℝ)), a = 0 := by
      intro a ha
      rcases List.mem_map.1 ha with ⟨x, _, rfl⟩
      rfl
    rw [hre, him, simpson_all_zero st.tz hz]
    simp

/-- Counterexample for C2: in the concrete run on the grid `[0, 2]`,
the step-0 basis vector is the raw exponential itself, and its weighted
self inner product is 0 — not ≈1 — because no normalization is applied
at `k = 0` (the raw vector is used as-is for projection and
subtraction). -/
theorem C2_counterexample :
    frecBody stW2 ocSpike fA [] =
      .ok (⟨-(Real.pi / 2), 0, 0, 1, rawExp stW2 (-(Real.pi / 2))⟩,
        [(1 : ℂ), 1]) ∧
    stW2.hanning_product (rawExp stW2 (-(Real.pi / 2)))
      (rawExp stW2 (-(Real.pi / 2))) = 0 ∧
    (0 : ℂ) ≠ 1 :=
  ⟨frecBody_fA, stW2_hp_zero _ _, by norm_num⟩

/-- Witness for C2 amended: the self inner product of the raw step-0
exponential equals the window quadrature `simps(chi)/(2T)` at a
concrete state and frequency, and a concrete `frecBody` run exposes the
raw exponential as its basis vector. -/
theorem C2_witness :
    (stW2.chi.length ≤ stW2.t.length ∧
      stW2.hanning_product (rawExp stW2 0) (rawExp stW2 0) =
        ((simpson stW2.chi stW2.tz / (2 * stW2.T) : ℝ) : ℂ)) ∧
    (frecBody stW2 ocSpike fA [] =
        .ok (⟨-(Real.pi / 2), 0, 0, 1, rawExp stW2 (-(Real.pi / 2))⟩,
          [(1 : ℂ), 1]) ∧
      ∃ ν, stW2.frequency ocSpike fA = .ok ν ∧
        ((⟨-(Real.pi / 2), 0, 0, 1, rawExp stW2 (-(Real.pi / 2))⟩,
          [(1 : ℂ), 1]) : FrecStep × List ℂ).1.e = rawExp stW2 ν ∧
        ((⟨-(Real.pi / 2), 0, 0, 1, rawExp stW2 (-(Real.pi / 2))⟩,
          [(1 : ℂ), 1]) : FrecStep × List ℂ).1.nu = ν) :=
  ⟨⟨le_refl 2, C2_raw_exponential_at_k0.2 stW2 0 (le_refl 2)⟩,
   ⟨frecBody_fA,
    C2_raw_exponential_at_k0.1 stW2 ocSpike fA _ frecBody_fA⟩⟩

theorem select3_eval :
    select [⟨-(Real.pi / 2), 0, 0, 0, 0⟩, ⟨Real.pi / 3, 0, 0, 0, 1⟩,
        ⟨Real.pi / 4, 0, 0, 0, 2⟩] 3 =
      .ok ([-(Real.pi / 2), Real.pi / 3, Real.pi / 4], [0, 1, 2]) := by
  have hpi : (3 : ℝ) < Real.pi := Real.pi_gt_three
  have ha0 : |(-(Real.pi / 2))| = Real.pi / 2 := by
    rw [abs_neg, abs_of_pos (by linarith)]
  have ha1 : |Real.pi / 3| = Real.pi / 3 := abs_of_pos (by linarith)
  have ha2 : |Real.pi / 4| = Real.pi / 4 := abs_of_pos (by linarith)
  have hp1c0 : selP1 ⟨-(Real.pi / 2), 0, 0, 0, 0⟩ := by
    unfold selP1
    dsimp only
    rw [ha0]
    linarith
  have hw1 : firstWhere selP1 [⟨-(Real.pi / 2), 0, 0, 0, 0⟩,
      ⟨Real.pi / 3, 0, 0, 0, 1⟩, ⟨Real.pi / 4, 0, 0, 0, 2⟩] =
      some (0, ⟨-(Real.pi / 2), 0, 0, 0, 0⟩) := by
    rw [firstWhere, if_pos hp1c0]
  have hn2c0 : ¬ selP2 ⟨-(Real.pi / 2), 0, 0, 0, 0⟩ (-(Real.pi / 2))
      ⟨-(Real.pi / 2), 0, 0, 0, 0⟩ := by
    intro h
    exact h.2.1 rfl
  have hp2c1 : selP2 ⟨-(Real.pi / 2), 0, 0, 0, 0⟩ (-(Real.pi / 2))
      ⟨Real.pi / 3, 0, 0, 0, 1⟩ := by
    unfold selP2
    dsimp only
    rw [ha0, ha1]
    refine ⟨by linarith, by norm_num, ?_⟩
    rw [show Real.pi / 2 - Real.pi / 3 = Real.pi / 6 by ring,
      abs_of_pos (by linarith)]
    linarith
  have hw2 : firstWhere (selP2 ⟨-(Real.pi / 2), 0, 0, 0, 0⟩ (-(Real.pi / 2)))
      [⟨-(Real.pi / 2), 0, 0, 0, 0⟩, ⟨Real.pi / 3, 0, 0, 0, 1⟩,
        ⟨Real.pi / 4, 0, 0, 0, 2⟩] =
      some (1, ⟨Real.pi / 3, 0, 0, 0, 1⟩) := by
    rw [firstWhere, if_neg hn2c0, firstWhere, if_pos hp2c1]
    rfl
  have hn3c0 : ¬ selP3 ⟨-(Real.pi / 2), 0, 0, 0, 0⟩ ⟨Real.pi / 3, 0, 0, 0, 1⟩
      (-(Real.pi / 2)) (Real.pi / 3) ⟨-(Real.pi / 2), 0, 0, 0, 0⟩ := by
    intro h
    exact h.2.1 rfl
  have hn3c1 : ¬ selP3 ⟨-(Real.pi / 2), 0, 0, 0, 0⟩ ⟨Real.pi / 3, 0, 0, 0, 1⟩
      (-(Real.pi / 2)) (Real.pi / 3) ⟨Real.pi / 3, 0, 0, 0, 1⟩ := by
    intro h
    exact h.2.2.1 rfl
  have hp3c2 : selP3 ⟨-(Real.pi / 2), 0, 0, 0, 0⟩ ⟨Real.pi / 3, 0, 0, 0, 1⟩
      (-(Real.pi / 2)) (Real.pi / 3) ⟨Real.pi / 4, 0, 0, 0, 2⟩ := by
    unfold selP3
    dsimp only
    rw [ha0, ha1, ha2]
    refine ⟨by linarith, by norm_num, by norm_num, ?_, ?_⟩
    · rw [show Real.pi / 2 - Real.pi / 4 = Real.pi / 4 by ring,
        abs_of_pos (by linarith)]
      linarith
    · rw [show Real.pi / 3 - Real.pi / 4 = Real.pi / 12 by ring,
        abs_of_pos (by linarith)]
      linarith
  have hw3 : firstWhere (selP3 ⟨-(Real.pi / 2), 0, 0, 0, 0⟩
      ⟨Real.pi / 3, 0, 0, 0, 1⟩ (-(Real.pi / 2)) (Real.pi / 3))
      [⟨-(Real.pi / 2), 0, 0, 0, 0⟩, ⟨Real.pi / 3, 0, 0, 0, 1⟩,
        ⟨Real.pi / 4, 0, 0, 0, 2⟩] =
      some (2, ⟨Real.pi / 4, 0, 0, 0, 2⟩) := by
    rw [firstWhere, if_neg hn3c0, firstWhere, if_neg hn3c1, firstWhere,
      if_pos hp3c2]
    rfl
  unfold select
  rw [hw1]
  dsimp only
  rw [if_neg (by norm_num)]
  rw [hw2]
  dsimp only
  rw [if_neg (by norm_num)]
  rw [hw3]
  dsimp only
  rw [if_pos (show coverageOK 0 1 2 by unfold coverageOK; decide)]
  rw [show reorderBy [0, 1, 2] [-(Real.pi / 2), Real.pi / 3, Real.pi / 4]
      0 = [-(Real.pi / 2), Real.pi / 3, Real.pi / 4] by
    unfold reorderBy
    rw [show argsortNat [0, 1, 2] = [0, 1, 2] from by decide]
    rfl]
  rw [show reorderBy [0, 1, 2] [0, 1, 2] 0 = [0, 1, 2] by
    unfold reorderBy
    rw [show argsortNat [0, 1, 2] = [0, 1, 2] from by decide]
    rfl]

theorem table3_eval :
    sortTable (buildTable [([Real.pi / 2], [0], [0]),
      ([-(Real.pi / 3)], [0], [0]), ([-(Real.pi / 4)], [0], [0])]) =
      [⟨-(Real.pi / 2), 0, 0, 0, 0⟩, ⟨Real.pi / 3, 0, 0, 0, 1⟩,
        ⟨Real.pi / 4, 0, 0, 0, 2⟩] := by
  unfold buildTable dimComps
  norm_num [List.enum, List.enumFrom, List.range_succ]
  unfold sortTable
  simp [List.insertionSort, List.orderedInsert]

theorem ffund3_eval :
    NAFF.find_fundamental_frequencies stW2 ocSpike [fA, fB, fC] 1 (some 2) =
      .ok ([-(Real.pi / 2), Real.pi / 3, Real.pi / 4],
        [⟨-(Real.pi / 2), 0, 0, 0, 0⟩, ⟨Real.pi / 3, 0, 0, 0, 1⟩,
          ⟨Real.pi / 4, 0, 0, 0, 2⟩], [0, 1, 2]) := by
  unfold NAFF.find_fundamental_frequencies
  unfold List.mapM List.mapM.loop
  rw [frecoder_fA]
  simp only [Bind.bind, Except.bind]
  unfold List.mapM.loop
  rw [frecoder_fB]
  simp only [Bind.bind, Except.bind]
  unfold List.mapM.loop
  rw [frecoder_fC]
  simp only [Bind.bind, Except.bind]
  unfold List.mapM.loop
  rw [show (pure [([-(Real.pi / 4)], [0], [0]), ([-(Real.pi / 3)], [0], [0]),
      ([Real.pi / 2], [0], [0])].reverse :
      Except NaffError (List (List ℝ × List ℝ × List ℝ))) =
    Except.ok [([Real.pi / 2], [0], [0]), ([-(Real.pi / 3)], [0], [0]),
      ([-(Real.pi / 4)], [0], [0])] from rfl]
  rw [show ([fA, fB, fC] : List (List ℂ)).length = 3 from rfl]
  dsimp only
  rw [table3_eval, select3_eval]

/-- Witness for C5: a concrete three-dimensional run whose selection
succeeds, covering source dimensions 0, 1, 2 exactly and in order. -/
theorem C5_witness :
    (([fA, fB, fC] : List (List ℂ)).length = 3 ∧
      NAFF.find_fundamental_frequencies stW2 ocSpike [fA, fB, fC] 1 (some 2) =
        .ok ([-(Real.pi / 2), Real.pi / 3, Real.pi / 4],
          [⟨-(Real.pi / 2), 0, 0, 0, 0⟩, ⟨Real.pi / 3, 0, 0, 0, 1⟩,
            ⟨Real.pi / 4, 0, 0, 0, 2⟩], [0, 1, 2])) ∧
    select [⟨-(Real.pi / 2), 0, 0, 0, 0⟩, ⟨Real.pi / 3, 0, 0, 0, 1⟩,
        ⟨Real.pi / 4, 0, 0, 0, 2⟩] 3 =
      .ok ([-(Real.pi / 2), Real.pi / 3, Real.pi / 4], [0, 1, 2]) ∧
    (([-(Real.pi / 2), Real.pi / 3, Real.pi / 4] : List ℝ).length = 3 ∧
      ([0, 1, 2] : List ℕ).length = 3 ∧
      ∀ i, i < 3 → ∃ j,
        j < ([⟨-(Real.pi / 2), 0, 0, 0, 0⟩, ⟨Real.pi / 3, 0, 0, 0, 1⟩,
          ⟨Real.pi / 4, 0, 0, 0, 2⟩] : List Comp).length ∧
        ([0, 1, 2] : List ℕ).getD i 0 = j ∧
        (([⟨-(Real.pi / 2), 0, 0, 0, 0⟩, ⟨Real.pi / 3, 0, 0, 0, 1⟩,
          ⟨Real.pi / 4, 0, 0, 0, 2⟩] : List Comp).getD j default).n = i ∧
        ([-(Real.pi / 2), Real.pi / 3, Real.pi / 4] : List ℝ).getD i 0 =
          (([⟨-(Real.pi / 2), 0, 0, 0, 0⟩, ⟨Real.pi / 3, 0, 0, 0, 1⟩,
            ⟨Real.pi / 4, 0, 0, 0, 2⟩] : List Comp).getD j default).freq) :=
  ⟨⟨rfl, ffund3_eval⟩,
   C5_find_fundamental_three.1 stW2 ocSpike [fA, fB, fC] 1 (some 2)
     ([-(Real.pi / 2), Real.pi / 3, Real.pi / 4],
       [⟨-(Real.pi / 2), 0, 0, 0, 0⟩, ⟨Real.pi / 3, 0, 0, 0, 1⟩,
         ⟨Real.pi / 4, 0, 0, 0, 2⟩], [0, 1, 2]) rfl ffund3_eval,
   C5_find_fundamental_three.2
     [⟨-(Real.pi / 2), 0, 0, 0, 0⟩, ⟨Real.pi / 3, 0, 0, 0, 1⟩,
       ⟨Real.pi / 4, 0, 0, 0, 2⟩]
     [-(Real.pi / 2), Real.pi / 3, Real.pi / 4] [0, 1, 2] select3_eval⟩
